import Mathlib

/-!
Verification of the tusq PostgreSQL transaction-pooling proxy (film42/tusq).

This file gives a shallow embedding, over `List Nat` byte buffers, of the
program's protocol parser (`src/proto.rs`), its startup-message codec, the MD5
password message builder, and the connection / pool fragments of `src/core.rs`
and `src/pool.rs`, and proves properties of those embeddings.

Conventions of the embedding:
  * a Rust `&[u8]` buffer is a `List Nat` whose elements are < 256 at all use
    sites (byte reads are always taken `% 256` where it matters);
  * Rust `usize` arithmetic is `Nat` arithmetic.  Subtractions that the Rust
    source only ever performs when they cannot underflow become truncated
    `Nat` subtraction; every theorem below either holds for all states or is
    restricted to the well-formed states reachable in the program, where the
    two semantics agree;
  * `i32` values are `Int`s; the Rust cast `i32 as usize` is `i32AsUsize`;
  * Rust loops are modelled with an explicit fuel parameter that is always
    instantiated large enough (proved where a theorem needs it), keeping all
    definitions executable by kernel reduction;
  * the `Partial` and `PartialComplete` descriptor constructors of
    `proto.rs::ProtoMessage` are named `Frag` and `FragEnd` here (the word
    itself cannot be used as a Lean identifier in this development); `Message`
    is `Msg`.
-/

namespace Tusq

/-! ## Byte-level primitives (byteorder::BigEndian) -/

/-- `BigEndian::read_i32`: big-endian two's-complement read of four bytes. -/
def readI32BE (b0 b1 b2 b3 : Nat) : Int :=
  let u : Nat := (b0 % 256) * 2 ^ 24 + (b1 % 256) * 2 ^ 16 + (b2 % 256) * 2 ^ 8 + b3 % 256
  if u < 2 ^ 31 then (u : Int) else (u : Int) - 2 ^ 32

/-- The Rust cast `i32 as usize` (64-bit target): two's-complement extension. -/
def i32AsUsize (v : Int) : Nat := (v % 2 ^ 64).toNat

/-- `BigEndian::write_i32` into four fresh bytes (the Rust `as i32` narrowing of
a `usize` length is the `% 2^32` below). -/
def writeI32BE (v : Int) : List Nat :=
  let u : Nat := (v % 2 ^ 32).toNat
  [u / 2 ^ 24 % 256, u / 2 ^ 16 % 256, u / 2 ^ 8 % 256, u % 256]

/-- Inclusive byte range `buffer[s..=e]` of a descriptor. -/
def sliceB (B : List Nat) (s e : Nat) : List Nat := (B.drop s).take (e + 1 - s)

/-! ## Descriptors (proto.rs::ProtoMessage) -/

/-- `ProtoMessage` of proto.rs: `Msg` is `Message(tag, start, end)` (a frame
complete within the current buffer), `Frag` is `Partial(tag, start, end)` (a
frame that starts but does not end in the buffer, or a continuation that still
does not end it), `FragEnd` is `PartialComplete(tag, end)` (the final bytes of
a frame begun in an earlier buffer). -/
inductive ProtoMessage where
  | Msg (tag s e : Nat)
  | Frag (tag s e : Nat)
  | FragEnd (tag e : Nat)
deriving DecidableEq, Repr

/-! ## Startup message (proto.rs::StartupMessage) -/

/-- `StartupMessage`.  Rust keeps the parameters in a `BTreeMap<String,String>`
(ordered by byte-lexicographic key order, no duplicate keys); we model the map
as its canonical association list, sorted strictly by key.  Keys and values are
byte lists (the bytes of the Rust `String`s, which are valid UTF-8). -/
structure StartupMessage where
  protocolVersion : Int
  parameters : List (List Nat × List Nat)
deriving DecidableEq, Repr

/-- Byte-lexicographic strict order on byte strings (Rust `String` `Ord`). -/
def bytesLt : List Nat → List Nat → Bool
  | [], [] => false
  | [], _ :: _ => true
  | _ :: _, [] => false
  | a :: as, b :: bs => a < b || (a = b && bytesLt as bs)

/-- `BTreeMap::insert` on the canonical sorted association list. -/
def bmInsert {α : Type} (k : List Nat) (v : α) : List (List Nat × α) → List (List Nat × α)
  | [] => [(k, v)]
  | (k', v') :: rest =>
    if bytesLt k k' then (k, v) :: (k', v') :: rest
    else if k = k' then (k, v) :: rest
    else (k', v') :: bmInsert k v rest

/-- `BTreeMap::get` on the association list. -/
def bmGet {α : Type} (k : List Nat) : List (List Nat × α) → Option α
  | [] => none
  | (k', v') :: rest => if k = k' then some v' else bmGet k rest

/-- The canonical-map invariant: keys strictly ascending. -/
def bmSorted {α : Type} : List (List Nat × α) → Bool
  | [] => true
  | [_] => true
  | a :: b :: rest => bytesLt a.1 b.1 && bmSorted ((b :: rest))

/-- `StartupMessage::new()`. -/
def StartupMessage.new : StartupMessage := ⟨0, []⟩

/-! ## Parser state (proto.rs::ProtoParser) -/

/-- The fields of `ProtoParser`.  `curType`, `curLen`, `curRead` are
`current_msg_type`, `current_msg_length`, `current_msg_bytes_read`; the last
three fields are the startup-message scratch state used by `parse_startup`
only. -/
structure ParserState where
  curType : Option Nat
  curLen : Nat
  curRead : Nat
  startupMsg : Option StartupMessage
  paramKey : Option (List Nat)
  paramValue : Option (List Nat)
deriving DecidableEq, Repr

/-- `ProtoParser::new()`. -/
def freshState : ParserState := ⟨none, 0, 0, none, none, none⟩

/-- `ProtoParser::msg_complete()`: resets the three framing fields (the
startup scratch fields are untouched). -/
def msgComplete (st : ParserState) : ParserState :=
  { st with curType := none, curLen := 0, curRead := 0 }

/-! ## The parser loop (proto.rs::ProtoParser::parse, lines 270-352)

`parseGo fuel B o st` is the `while offset < buffer.len() - 4` loop, entered at
offset `o`.  It returns the final offset (the byte count the call consumed),
the descriptors pushed (in push order), and the final parser state.  The fuel
only bounds the iteration count; `parse` supplies `B.length + 2`, which is
proved sufficient below (each iteration either advances the offset or clears
`curType`, and the latter can happen at most once in a row). -/

/-- The declared length of a frame whose tag sits at offset `o` of `B`
(`BigEndian::read_i32(&buffer[offset..offset + 4]) as usize` with `offset`
already past the tag). -/
def declaredLenAt (B : List Nat) (o : Nat) : Nat :=
  i32AsUsize (readI32BE (B.getD (o + 1) 0) (B.getD (o + 2) 0) (B.getD (o + 3) 0)
    (B.getD (o + 4) 0))

def parseGo : Nat → List Nat → Nat → ParserState → Nat × List ProtoMessage × ParserState
  | 0, _, o, st => (o, [], st)
  | fuel + 1, B, o, st =>
    if o < B.length - 4 then
      match st.curType with
      | some t =>
        -- handle partial message (lines 287-319)
        let remaining := st.curLen - st.curRead
        let btr := min B.length remaining
        if remaining - btr = 0 ∧ o = 0 then
          let r := parseGo fuel B (o + btr) (msgComplete st)
          (r.1, ProtoMessage.FragEnd t (btr - 1) :: r.2.1, r.2.2)
        else
          let r := parseGo fuel B (o + btr) { st with curRead := st.curRead + btr }
          (r.1, ProtoMessage.Frag t o (o + btr - 1) :: r.2.1, r.2.2)
      | none =>
        -- expect and handle new message (lines 321-348)
        let t := B.getD o 0
        let len := declaredLenAt B o
        let remaining := len - st.curRead
        let btr := min (B.length - (o + 1)) remaining
        if remaining - btr = 0 then
          -- `msg_complete` resets the three fields just written, so the
          -- intermediate assignments of `current_msg_type`/`length` vanish.
          let r := parseGo fuel B (o + 1 + btr) (msgComplete st)
          (r.1, ProtoMessage.Msg t o (o + btr) :: r.2.1, r.2.2)
        else
          let r := parseGo fuel B (o + 1 + btr)
            { st with curType := some t, curLen := len, curRead := st.curRead + btr }
          (r.1, ProtoMessage.Frag t o (o + btr) :: r.2.1, r.2.2)
    else (o, [], st)

/-- `ProtoParser::parse`.  The Rust function returns `anyhow::Result<usize>`
but has no failing path (it always returns `Ok`); the consumed byte count is
the first component, the descriptors it pushed onto `msgs` the second, the
updated parser the third. -/
def parse (st : ParserState) (B : List Nat) : Nat × List ProtoMessage × ParserState :=
  if B.length < 5 then (0, [], st) else parseGo (B.length + 2) B 0 st

/-! ## Canonical frame decomposition

The specification layer for the chunk-feeding theorems: `scan S k` decomposes
a byte stream suffix `S`, of which the first `k` bytes have been consumed by
the parser, into the complete frames lying inside those `k` bytes and the
partially consumed residue.  A frame at the head of `S` is one tag byte plus
`declaredLen S` further bytes (the declared length counts its own four length
bytes, exactly as the parser consumes them); it is only recognised when the
parser could have seen its five-byte header (`5 ≤ S.length`) and is complete
when it lies inside the consumed part (`1 + declaredLen S ≤ k`). -/

/-- The declared length of the frame at the head of `S` (read from bytes
1..4, i.e. the four bytes after the tag, cast `as usize`). -/
def declaredLen (S : List Nat) : Nat :=
  i32AsUsize (readI32BE (S.getD 1 0) (S.getD 2 0) (S.getD 3 0) (S.getD 4 0))

/-- Fueled canonical scanner: returns (complete frames as (tag, frame bytes),
unscanned suffix, consumed bytes within that suffix). -/
def scanGo : Nat → List Nat → Nat → List (Nat × List Nat) × List Nat × Nat
  | 0, S, k => ([], S, k)
  | fuel + 1, S, k =>
    if 5 ≤ S.length ∧ 1 + declaredLen S ≤ k then
      let f := 1 + declaredLen S
      let r := scanGo fuel (S.drop f) (k - f)
      ((S.getD 0 0, S.take f) :: r.1, r.2.1, r.2.2)
    else ([], S, k)

/-- Canonical frame decomposition of the first `k` bytes of `S`. -/
def scan (S : List Nat) (k : Nat) : List (Nat × List Nat) × List Nat × Nat :=
  scanGo (k + 1) S k

/-! ## Merging descriptor chains

`mergeGo pend hist` folds a history of (descriptor, buffer-it-points-into)
pairs into the list of completed framed messages `(tag, frame bytes)`, merging
each `Frag` chain with its closing `FragEnd`; `pend` is the pending
(tag, bytes collected so far) of an open chain.  The second component of the
result is the pending chain left open at the end. -/
def mergeGo : Option (Nat × List Nat) → List (ProtoMessage × List Nat) →
    List (Nat × List Nat) × Option (Nat × List Nat)
  | p, [] => ([], p)
  | p, (ProtoMessage.Msg t s e, B) :: rest =>
    let r := mergeGo p rest
    ((t, sliceB B s e) :: r.1, r.2)
  | none, (ProtoMessage.Frag t s e, B) :: rest =>
    mergeGo (some (t, sliceB B s e)) rest
  | some (t₀, bs), (ProtoMessage.Frag _ s e, B) :: rest =>
    mergeGo (some (t₀, bs ++ sliceB B s e)) rest
  | none, (ProtoMessage.FragEnd t e, B) :: rest =>
    let r := mergeGo none rest
    ((t, sliceB B 0 e) :: r.1, r.2)
  | some (t₀, bs), (ProtoMessage.FragEnd _ e, B) :: rest =>
    let r := mergeGo none rest
    ((t₀, bs ++ sliceB B 0 e) :: r.1, r.2)

/-- Completed framed messages of a descriptor history. -/
def mergeEvents (hist : List (ProtoMessage × List Nat)) : List (Nat × List Nat) :=
  (mergeGo none hist).1

/-! ## Feeding a stream to `parse` chunk by chunk

This is the carry policy of `PgConn::read_and_parse` (core.rs 170-204): each
call's buffer is the unconsumed tail of the previous call's buffer followed by
the newly read chunk. -/

/-- Feed the chunks in order; returns the final (parser state, carry) and the
history of (descriptor, buffer) pairs produced across all calls. -/
def runChunks : ParserState × List Nat → List (List Nat) →
    (ParserState × List Nat) × List (ProtoMessage × List Nat)
  | rs, [] => (rs, [])
  | rs, c :: cs =>
    let B := rs.2 ++ c
    let p := parse rs.1 B
    let r := runChunks (p.2.2, B.drop p.1) cs
    (r.1, p.2.1.map (fun m => (m, B)) ++ r.2)

/-- The merged message sequence obtained by feeding `chunks` one call at a
time to a fresh parser with the carry policy. -/
def chunkedEvents (chunks : List (List Nat)) : List (Nat × List Nat) :=
  mergeEvents (runChunks (freshState, []) chunks).2

/-! ## Startup parsing (proto.rs::ProtoParser::parse_startup, lines 146-262)

The Rust function returns `anyhow::Result<(usize, Option<ProtoStartup>)>` and
mutates the parser; it can also panic (on `expect` for a missing NUL
terminator or invalid UTF-8, and on indexing past the buffer).  We model the
result as `Option (consumed, descriptor, state)` where `none` stands for the
panicking executions; the `Result` error path is never taken by the source. -/

/-- `ProtoStartup` of proto.rs. -/
inductive ProtoStartup where
  | Message (sm : StartupMessage)
  | SSLRequest
  | CancelRequest
deriving DecidableEq, Repr

/-- `memchr::memchr(0, l)`. -/
def idxOf0 : List Nat → Option Nat
  | [] => none
  | b :: rest => if b = 0 then some 0 else (idxOf0 rest).map (· + 1)

/-- Exact UTF-8 validity of a byte list (`std::str::from_utf8` succeeds). -/
def utf8Valid : List Nat → Bool
  | [] => true
  | b :: rest =>
    if b ≤ 0x7F then utf8Valid rest
    else if 0xC2 ≤ b ∧ b ≤ 0xDF then
      match rest with
      | c1 :: r => (0x80 ≤ c1 && c1 ≤ 0xBF) && utf8Valid r
      | [] => false
    else if b = 0xE0 then
      match rest with
      | c1 :: c2 :: r => (0xA0 ≤ c1 && c1 ≤ 0xBF) && (0x80 ≤ c2 && c2 ≤ 0xBF) && utf8Valid r
      | _ => false
    else if (0xE1 ≤ b ∧ b ≤ 0xEC) ∨ b = 0xEE ∨ b = 0xEF then
      match rest with
      | c1 :: c2 :: r => (0x80 ≤ c1 && c1 ≤ 0xBF) && (0x80 ≤ c2 && c2 ≤ 0xBF) && utf8Valid r
      | _ => false
    else if b = 0xED then
      match rest with
      | c1 :: c2 :: r => (0x80 ≤ c1 && c1 ≤ 0x9F) && (0x80 ≤ c2 && c2 ≤ 0xBF) && utf8Valid r
      | _ => false
    else if b = 0xF0 then
      match rest with
      | c1 :: c2 :: c3 :: r =>
        (0x90 ≤ c1 && c1 ≤ 0xBF) && (0x80 ≤ c2 && c2 ≤ 0xBF) && (0x80 ≤ c3 && c3 ≤ 0xBF) &&
          utf8Valid r
      | _ => false
    else if 0xF1 ≤ b ∧ b ≤ 0xF3 then
      match rest with
      | c1 :: c2 :: c3 :: r =>
        (0x80 ≤ c1 && c1 ≤ 0xBF) && (0x80 ≤ c2 && c2 ≤ 0xBF) && (0x80 ≤ c3 && c3 ≤ 0xBF) &&
          utf8Valid r
      | _ => false
    else if b = 0xF4 then
      match rest with
      | c1 :: c2 :: c3 :: r =>
        (0x80 ≤ c1 && c1 ≤ 0x8F) && (0x80 ≤ c2 && c2 ≤ 0xBF) && (0x80 ≤ c3 && c3 ≤ 0xBF) &&
          utf8Valid r
      | _ => false
    else false

/-- Read one null-terminated parameter string at offset `o`
(`memchr` + `std::str::from_utf8(..).expect(..)`); `none` models the panics.
Returns the string's bytes and the offset just past the terminator. -/
def readCStr (B : List Nat) (o : Nat) : Option (List Nat × Nat) :=
  match idxOf0 (B.drop o) with
  | none => none
  | some pos =>
    let cstr := (B.drop o).take pos
    if utf8Valid cstr then some (cstr, o + pos + 1) else none

/-- The `loop` of `parse_startup` (lines 196-257): key/value pairs until a
lone NUL.  Fuel bounds iterations; `parse_startup` passes `2 * B.length + 4`,
enough because every two iterations consume at least one byte. -/
def startupParams : Nat → List Nat → Nat → ParserState →
    Option (Nat × Option ProtoStartup × ParserState)
  | 0, _, _, _ => none
  | fuel + 1, B, o, st =>
    if o < B.length then
      if B.getD o 0 = 0 then
        some (o + 1, st.startupMsg.map ProtoStartup.Message,
          { msgComplete st with startupMsg := none })
      else
        let kStep : Option (ParserState × Nat) :=
          match st.paramKey with
          | some _ => some (st, o)
          | none => (readCStr B o).map fun p =>
              ({ st with paramKey := some p.1, curRead := st.curRead + (p.2 - o) }, p.2)
        match kStep with
        | none => none
        | some (st₁, o₁) =>
          let vStep : Option (ParserState × Nat) :=
            match st₁.paramValue with
            | some _ => some (st₁, o₁)
            | none => (readCStr B o₁).map fun p =>
                ({ st₁ with paramValue := some p.1, curRead := st₁.curRead + (p.2 - o₁) }, p.2)
          match vStep with
          | none => none
          | some (st₂, o₂) =>
            match st₂.paramKey, st₂.paramValue with
            | some k, some v =>
              startupParams fuel B o₂
                { st₂ with
                    paramKey := none,
                    paramValue := none,
                    startupMsg := (st₂.startupMsg.map fun sm =>
                      { sm with parameters := bmInsert k v sm.parameters }) }
            | _, _ => none
    else none

/-- Cancel-request / SSL-request detection and the parameter loop
(lines 178-257), entered with `startupMsg` populated. -/
def parseStartupStage3 (st : ParserState) (B : List Nat) (o : Nat) :
    Option (Nat × Option ProtoStartup × ParserState) :=
  match st.startupMsg with
  | none => some (0, none, st)
  | some sm =>
    if sm.protocolVersion = 80877102 ∧ st.curLen = 16 then
      some (16, some ProtoStartup.CancelRequest, { msgComplete st with startupMsg := none })
    else if sm.protocolVersion = 80877103 ∧ st.curLen = 8 then
      some (8, some ProtoStartup.SSLRequest, { msgComplete st with startupMsg := none })
    else startupParams (2 * B.length + 4) B o st

/-- Protocol-version read (lines 166-176). -/
def parseStartupStage2 (st : ParserState) (B : List Nat) (o : Nat) :
    Option (Nat × Option ProtoStartup × ParserState) :=
  match st.startupMsg with
  | none => some (0, none, st)
  | some sm =>
    if st.curRead < 8 then
      if B.length - o < 4 then some (o, none, st)
      else
        let v := readI32BE (B.getD o 0) (B.getD (o + 1) 0) (B.getD (o + 2) 0) (B.getD (o + 3) 0)
        parseStartupStage3
          { st with startupMsg := some { sm with protocolVersion := v },
                    curRead := st.curRead + 4 } B (o + 4)
    else parseStartupStage3 st B o

/-- `ProtoParser::parse_startup`. -/
def parse_startup (st : ParserState) (B : List Nat) :
    Option (Nat × Option ProtoStartup × ParserState) :=
  match st.startupMsg with
  | none =>
    if B.length < 4 then some (0, none, st)
    else
      parseStartupStage2
        { st with
            curLen := i32AsUsize (readI32BE (B.getD 0 0) (B.getD 1 0) (B.getD 2 0) (B.getD 3 0)),
            startupMsg := some StartupMessage.new,
            curRead := st.curRead + 4 } B 4
  | some _ => parseStartupStage2 st B 0

/-! ## Startup serialization (proto.rs::StartupMessage::as_bytes, lines 518-543) -/

/-- The key/value section: each parameter as two null-terminated strings, in
map (sorted-key) iteration order. -/
def paramsBytes : List (List Nat × List Nat) → List Nat
  | [] => []
  | (k, v) :: rest => k ++ [0] ++ v ++ [0] ++ paramsBytes rest

/-- `StartupMessage::as_bytes`: length word (counting itself), protocol
version, parameters, one terminating NUL. -/
def StartupMessage.asBytes (m : StartupMessage) : List Nat :=
  let body := writeI32BE m.protocolVersion ++ paramsBytes m.parameters ++ [0]
  writeI32BE ((4 : Int) + body.length) ++ body

/-! ## MD5 (RFC 1321) — the `md5` crate dependency of `password_md5`

`password_md5` calls `md5::compute`; the crate is external to the repository,
so the digest is embedded here in full from the MD5 specification.  All 32-bit
state is `Nat` reduced `% 2^32`. -/

/-- The 64 sine-derived round constants. -/
def md5K : List Nat :=
  [0xd76aa478, 0xe8c7b756, 0x242070db, 0xc1bdceee,
   0xf57c0faf, 0x4787c62a, 0xa8304613, 0xfd469501,
   0x698098d8, 0x8b44f7af, 0xffff5bb1, 0x895cd7be,
   0x6b901122, 0xfd987193, 0xa679438e, 0x49b40821,
   0xf61e2562, 0xc040b340, 0x265e5a51, 0xe9b6c7aa,
   0xd62f105d, 0x02441453, 0xd8a1e681, 0xe7d3fbc8,
   0x21e1cde6, 0xc33707d6, 0xf4d50d87, 0x455a14ed,
   0xa9e3e905, 0xfcefa3f8, 0x676f02d9, 0x8d2a4c8a,
   0xfffa3942, 0x8771f681, 0x6d9d6122, 0xfde5380c,
   0xa4beea44, 0x4bdecfa9, 0xf6bb4b60, 0xbebfbc70,
   0x289b7ec6, 0xeaa127fa, 0xd4ef3085, 0x04881d05,
   0xd9d4d039, 0xe6db99e5, 0x1fa27cf8, 0xc4ac5665,
   0xf4292244, 0x432aff97, 0xab9423a7, 0xfc93a039,
   0x655b59c3, 0x8f0ccc92, 0xffeff47d, 0x85845dd1,
   0x6fa87e4f, 0xfe2ce6e0, 0xa3014314, 0x4e0811a1,
   0xf7537e82, 0xbd3af235, 0x2ad7d2bb, 0xeb86d391]

/-- The per-round left-rotate amounts. -/
def md5S : List Nat :=
  [7, 12, 17, 22, 7, 12, 17, 22, 7, 12, 17, 22, 7, 12, 17, 22,
   5, 9, 14, 20, 5, 9, 14, 20, 5, 9, 14, 20, 5, 9, 14, 20,
   4, 11, 16, 23, 4, 11, 16, 23, 4, 11, 16, 23, 4, 11, 16, 23,
   6, 10, 15, 21, 6, 10, 15, 21, 6, 10, 15, 21, 6, 10, 15, 21]

/-- 32-bit complement. -/
def not32 (x : Nat) : Nat := Nat.xor x (2 ^ 32 - 1)

/-- 32-bit left rotation (argument assumed `< 2^32`, `0 < s < 32`). -/
def rotl32 (x s : Nat) : Nat := (x * 2 ^ s) % 2 ^ 32 + x / 2 ^ (32 - s)

/-- The round function F/G/H/I selected by round index. -/
def md5FG (i b c d : Nat) : Nat :=
  if i < 16 then Nat.lor (Nat.land b c) (Nat.land (not32 b) d)
  else if i < 32 then Nat.lor (Nat.land d b) (Nat.land (not32 d) c)
  else if i < 48 then Nat.xor b (Nat.xor c d)
  else Nat.xor c (Nat.lor b (not32 d))

/-- The message-word index used in round `i`. -/
def md5Idx (i : Nat) : Nat :=
  if i < 16 then i
  else if i < 32 then (5 * i + 1) % 16
  else if i < 48 then (3 * i + 5) % 16
  else (7 * i) % 16

/-- Little-endian 32-bit word `j` of a 64-byte block. -/
def le32At (blk : List Nat) (j : Nat) : Nat :=
  blk.getD (4 * j) 0 + blk.getD (4 * j + 1) 0 * 2 ^ 8 +
    blk.getD (4 * j + 2) 0 * 2 ^ 16 + blk.getD (4 * j + 3) 0 * 2 ^ 24

/-- One MD5 round on the rolling (a, b, c, d) state. -/
def md5Round (blk : List Nat) (st : Nat × Nat × Nat × Nat) (i : Nat) : Nat × Nat × Nat × Nat :=
  let f := (md5FG i st.2.1 st.2.2.1 st.2.2.2 + st.1 + md5K.getD i 0 + le32At blk (md5Idx i)) % 2 ^ 32
  (st.2.2.2, (st.2.1 + rotl32 f (md5S.getD i 0)) % 2 ^ 32, st.2.1, st.2.2.1)

/-- Process one 64-byte block. -/
def md5Block (st : Nat × Nat × Nat × Nat) (blk : List Nat) : Nat × Nat × Nat × Nat :=
  let r := (List.range 64).foldl (md5Round blk) st
  ((st.1 + r.1) % 2 ^ 32, (st.2.1 + r.2.1) % 2 ^ 32,
   (st.2.2.1 + r.2.2.1) % 2 ^ 32, (st.2.2.2 + r.2.2.2) % 2 ^ 32)

/-- Little-endian bytes of a 64-bit value. -/
def le64 (n : Nat) : List Nat :=
  [n % 2 ^ 8, n / 2 ^ 8 % 2 ^ 8, n / 2 ^ 16 % 2 ^ 8, n / 2 ^ 24 % 2 ^ 8,
   n / 2 ^ 32 % 2 ^ 8, n / 2 ^ 40 % 2 ^ 8, n / 2 ^ 48 % 2 ^ 8, n / 2 ^ 56 % 2 ^ 8]

/-- Little-endian bytes of a 32-bit word. -/
def le32 (n : Nat) : List Nat := [n % 2 ^ 8, n / 2 ^ 8 % 2 ^ 8, n / 2 ^ 16 % 2 ^ 8, n / 2 ^ 24 % 2 ^ 8]

/-- MD5 padding: 0x80, zeros to 56 mod 64, 64-bit little-endian bit length. -/
def md5Pad (msg : List Nat) : List Nat :=
  msg ++ [0x80] ++ List.replicate ((119 - msg.length % 64) % 64) 0 ++ le64 (msg.length * 8)

/-- Split into 64-byte blocks (fueled; `md5Digest` supplies enough). -/
def chunks64 : Nat → List Nat → List (List Nat)
  | 0, _ => []
  | _ + 1, [] => []
  | fuel + 1, l => l.take 64 :: chunks64 fuel (l.drop 64)

/-- `md5::compute`: the 16-byte MD5 digest. -/
def md5Digest (msg : List Nat) : List Nat :=
  let padded := md5Pad msg
  let s := (chunks64 (padded.length + 1) padded).foldl md5Block
    (0x67452301, 0xefcdab89, 0x98badcfe, 0x10325476)
  le32 s.1 ++ le32 s.2.1 ++ le32 s.2.2.1 ++ le32 s.2.2.2

/-- Lowercase hex digit. -/
def hexDigit (n : Nat) : Nat := if n < 10 then 48 + n else 87 + n

/-- The bytes of the lowercase-hex rendering (`format!("{:x}", ..)`). -/
def hexBytes : List Nat → List Nat
  | [] => []
  | b :: r => hexDigit (b / 16) :: hexDigit (b % 16) :: hexBytes r

/-- Hex string (as bytes) of the MD5 digest of `msg`. -/
def md5Hex (msg : List Nat) : List Nat := hexBytes (md5Digest msg)

/-! ## messages::password_md5 (proto.rs lines 23-42) -/

/-- `BigEndian::write_i32(&mut msg[1..5], (msg.len() - 1) as i32)`: patch the
four bytes after the tag with the big-endian length. -/
def writeLenAt1 (msg : List Nat) : List Nat :=
  msg.take 1 ++ writeI32BE ((msg.length : Int) - 1) ++ msg.drop 5

/-- `messages::password_md5`: `'p'`, length, "md5" ++
hex(md5(hex(md5(password ++ username)) ++ salt)), NUL.  Strings are byte
lists. -/
def password_md5 (username password salt : List Nat) : List Nat :=
  let userpass := password ++ username
  let inner := md5Hex userpass
  let salted := inner ++ salt
  let outer := [109, 100, 53] ++ md5Hex salted
  let msg := [112] ++ [0, 0, 0, 0] ++ outer ++ [0]
  writeLenAt1 msg

/-! ## Descriptor inspection (proto.rs 427-481) -/

/-- `ProtoMessage::msg_type`. -/
def ProtoMessage.msg_tag : ProtoMessage → Nat
  | ProtoMessage.Msg t _ _ => t
  | ProtoMessage.Frag t _ _ => t
  | ProtoMessage.FragEnd t _ => t

/-- `ProtoMessage::transaction_type` (lines 427-434): the status byte of a
complete ReadyForQuery.  The Rust `buffer[start + 5]` indexing panics when out
of range; `List.get?` returns `none` there instead (no claim depends on the
panicking executions). -/
def transaction_type (m : ProtoMessage) (buffer : List Nat) : Option Nat :=
  match m with
  | ProtoMessage.Msg t s e =>
    if t = 90 then (if e - s = 5 then buffer.get? (s + 5) else none) else none
  | _ => none

/-! ## Framed connection (core.rs::PgConn) -/

/-- The `PgConn` fields the claims touch: parser, the carry-over
(`incomplete_buffer` up to `incomplete_buffer_len`), the two flags, and the
descriptor queue. -/
structure PgConn where
  parser : ParserState
  carry : List Nat
  isBroken : Bool
  isActiveTransaction : Bool
  msgs : List ProtoMessage
deriving DecidableEq, Repr

/-- What one `conn.read(..)` produced: a byte chunk (possibly empty = EOF) or
an I/O error propagated by `?`. -/
inductive ReadOutcome where
  | bytes (data : List Nat)
  | ioError
deriving DecidableEq, Repr

/-- The error outcomes of `read_and_parse`. -/
inductive ReadError where
  | disconnected
  | ioFailure
deriving DecidableEq, Repr

/-- `PgConn::read_and_parse` (core.rs 170-204): prepend the carry, parse the
combined range, keep the unparsed tail as the next carry.  The connection
state is returned alongside the result so that the `is_broken` write before
the `Disconnected` bail is observable. -/
def read_and_parse (c : PgConn) (r : ReadOutcome) : PgConn × Except ReadError Nat :=
  match r with
  | ReadOutcome.ioError => (c, Except.error ReadError.ioFailure)
  | ReadOutcome.bytes data =>
    if data.length = 0 then ({ c with isBroken := true }, Except.error ReadError.disconnected)
    else
      let B := c.carry ++ data
      let p := parse c.parser B
      ({ c with parser := p.2.2, carry := B.drop p.1, msgs := c.msgs ++ p.2.1 }, Except.ok p.1)

/-! ## Timed writes (core.rs::net::write_all_with_timeout, lines 364-385) -/

/-- How the underlying `write_all` future behaves: completes before the
timeout window closes, would complete only after it, or fails. -/
inductive WriteOutcome where
  | doneWithin
  | doneLate
  | ioError
deriving DecidableEq, Repr

/-- `net::write_all_with_timeout`.  Without a timeout the future is simply
awaited (`doneLate` still completes); with one, `tokio::time::timeout`
converts a late completion into `Ok(None)`. -/
def write_all_with_timeout (buffer : List Nat) (timeout : Option Nat) (w : WriteOutcome) :
    Except Unit (Option Nat) :=
  match timeout with
  | none =>
    match w with
    | WriteOutcome.ioError => Except.error ()
    | _ => Except.ok (some buffer.length)
  | some _ =>
    match w with
    | WriteOutcome.doneWithin => Except.ok (some buffer.length)
    | WriteOutcome.doneLate => Except.ok none
    | WriteOutcome.ioError => Except.error ()

/-! ## Pool manager fragments (pool.rs, config.rs) -/

/-- `config.rs::Database`. -/
structure Database where
  dbname : List Nat
  user : List Nat
  host : List Nat
  password : Option (List Nat)
  port : List Nat
  poolSize : Nat
deriving DecidableEq, Repr

/-- The bytes of `"database"`. -/
def kDatabase : List Nat := [100, 97, 116, 97, 98, 97, 115, 101]

/-- The bytes of `"user"`. -/
def kUser : List Nat := [117, 115, 101, 114]

/-- The bytes of `"application_name"`. -/
def kApplicationName : List Nat :=
  [97, 112, 112, 108, 105, 99, 97, 116, 105, 111, 110, 95, 110, 97, 109, 101]

/-- The bytes of `"tusq"`. -/
def vTusq : List Nat := [116, 117, 115, 113]

/-- `Database::startup_parameters` (config.rs 93-100). -/
def Database.startup_parameters (d : Database) : List (List Nat × List Nat) :=
  bmInsert kUser d.user (bmInsert kDatabase d.dbname [])

/-- `StartupMessage::database_name` (proto.rs 510-515). -/
def StartupMessage.databaseName (m : StartupMessage) : Option (List Nat) :=
  bmGet kDatabase m.parameters

/-- The upstream startup-message synthesis inside `PgConnPool::connect`
(pool.rs 69-78): clone the client's message, overlay the configured
parameters, then force `application_name = "tusq"`. -/
def connectStartupMessage (clientSM : StartupMessage) (d : Database) : StartupMessage :=
  let sm := { clientSM with
    parameters := d.startup_parameters.foldl
      (fun ps (kv : List Nat × List Nat) => bmInsert kv.1 kv.2 ps) clientSM.parameters }
  { sm with parameters := bmInsert kApplicationName vTusq sm.parameters }

/-- `PgConnPool::connect` up to the message it writes upstream (pool.rs
49-87): resolve the client's database name, look its configuration up under
that alias, synthesize the startup message.  `none` models the two `expect`
panics. -/
def connectUpstreamMessage (databases : List (List Nat × Database))
    (clientSM : StartupMessage) : Option StartupMessage :=
  match clientSM.databaseName with
  | none => none
  | some dbname =>
    match bmGet dbname databases with
    | none => none
    | some d => some (connectStartupMessage clientSM d)

/-- `PgConnPool::has_broken` (pool.rs 146-148). -/
def has_broken (c : PgConn) : Bool := c.isBroken || c.isActiveTransaction

/-- Modelled from the spec: the pool library (`bb8`, external to this
repository) decides re-insertion of a returned connection by the manager's
`has_broken`; spec §4.4: "If `conn.broken` or `conn.in_transaction` → retire
(close socket, do not readd). Otherwise re-insert." -/
def poolReinserts (c : PgConn) : Bool := !has_broken c

/-! ## Session driver fragment (core.rs::spawn, lines 303-320)

The server-message drain of the transaction loop: pop every queued
descriptor; a complete ReadyForQuery with status `'I'` clears
`is_active_transaction` and breaks the loop; `'X'` panics; everything else is
relayed.  `spawn` is the only writer of `is_active_transaction` (set at
checkout, line 251; cleared here, line 310). -/

/-- How the drain loop ended. -/
inductive DrainOutcome where
  | txnComplete
  | drained
  | serverClosed
deriving DecidableEq, Repr

/-- The drain loop over the queued server descriptors, with the current
`is_active_transaction` value; returns the final flag and how it ended. -/
def drainServerMsgs (buffer : List Nat) : List ProtoMessage → Bool → Bool × DrainOutcome
  | [], active => (active, DrainOutcome.drained)
  | m :: rest, active =>
    if m.msg_tag = 90 then
      if transaction_type m buffer = some 73 then (false, DrainOutcome.txnComplete)
      else drainServerMsgs buffer rest active
    else if m.msg_tag = 88 then (active, DrainOutcome.serverClosed)
    else drainServerMsgs buffer rest active

/-! ## Simulation bookkeeping for the chunk-equivalence proof

`pendOf st R` is the pending merge chain corresponding to a parser state
whose current frame has already consumed the bytes `R`; `stateRel st R`
says the parser state is exactly the state reached by consuming `R` of an
in-progress frame (or none at all). -/

/-- The pending (tag, bytes consumed so far) chain a parser state stands for. -/
def pendOf (st : ParserState) (R : List Nat) : Option (Nat × List Nat) :=
  match st.curType with
  | none => none
  | some t => some (t, R)

/-- The parser state corresponds to the partially consumed frame `R`. -/
def stateRel (st : ParserState) (R : List Nat) : Prop :=
  match st.curType with
  | none => R = [] ∧ st.curLen = 0 ∧ st.curRead = 0
  | some t => R.length = 1 + st.curRead ∧ 5 ≤ R.length ∧ R.getD 0 0 = t ∧
      declaredLen R = st.curLen ∧ st.curRead < st.curLen

/-!
# Theorems

## Bounds of the parse loop

Every iteration of the loop either advances the offset or (at most once in a
row) clears `curType`; the measure `B.length - o + curType-flag` therefore
strictly decreases, and the loop alone decides how much of the buffer is
consumed: on exit the offset is past `B.length - 4`, i.e. at most four bytes
remain. -/

/-- Loop bound: with enough fuel, starting inside the buffer, `parseGo` stops
at an offset in `[B.length - 4, B.length]`. -/
theorem parseGo_bounds (fuel : Nat) : ∀ (B : List Nat) (o : Nat) (st : ParserState),
    B.length - o + (if st.curType.isSome then 1 else 0) < fuel →
    o ≤ B.length →
    (st.curType.isSome = true → o = 0 ∨ B.length - 4 ≤ o) →
    (parseGo fuel B o st).1 ≤ B.length ∧ B.length - 4 ≤ (parseGo fuel B o st).1 := by
  induction fuel with
  | zero => intro B o st h; omega
  | succ fuel ih =>
    intro B o st hf ho hinv
    rw [parseGo]
    by_cases hg : o < B.length - 4
    · rw [if_pos hg]
      cases hst : st.curType with
      | some t =>
        have ho0 : o = 0 := by
          rcases hinv (by rw [hst]; rfl) with h | h
          · exact h
          · omega
        subst ho0
        rw [hst] at hf
        simp only [Option.isSome_some, if_pos] at hf
        have hb1 : min B.length (st.curLen - st.curRead) ≤ B.length := Nat.min_le_left _ _
        have hb2 : min B.length (st.curLen - st.curRead) = B.length ∨
            min B.length (st.curLen - st.curRead) = st.curLen - st.curRead :=
          min_choice _ _
        dsimp only
        split
        · dsimp only
          refine ih B _ _ ?_ (by omega) ?_
          · simp only [msgComplete, Option.isSome_none, Bool.false_eq_true, if_false]
            omega
          · intro h; simp [msgComplete] at h
        · rename_i hc
          have hbtr : min B.length (st.curLen - st.curRead) = B.length := by
            rcases hb2 with h | h
            · exact h
            · exfalso; exact hc ⟨by omega, rfl⟩
          dsimp only
          refine ih B _ _ ?_ (by omega) ?_
          · simp only [Option.isSome_some, if_true]
            omega

          · intro _; right; omega
      | none =>
        rw [hst] at hf
        simp only [Option.isSome_none, if_false] at hf
        have hb1 : min (B.length - (o + 1)) (declaredLenAt B o - st.curRead) ≤
            B.length - (o + 1) := Nat.min_le_left _ _
        have hb2 : min (B.length - (o + 1)) (declaredLenAt B o - st.curRead) =
            B.length - (o + 1) ∨
            min (B.length - (o + 1)) (declaredLenAt B o - st.curRead) =
            declaredLenAt B o - st.curRead := min_choice _ _
        dsimp only
        split
        · dsimp only
          refine ih B _ _ ?_ (by omega) ?_
          · simp only [msgComplete, Option.isSome_none, Bool.false_eq_true, if_false]
            omega
          · intro h; simp [msgComplete] at h
        · rename_i hc
          have hbtr : min (B.length - (o + 1)) (declaredLenAt B o - st.curRead) =
              B.length - (o + 1) := by
            rcases hb2 with h | h
            · exact h
            · exfalso; exact hc (by omega)
          dsimp only
          refine ih B _ _ ?_ (by omega) ?_
          · simp only [Option.isSome_some, if_true]
            omega

          · intro _; right; omega
    · rw [if_neg hg]
      exact ⟨ho, by omega⟩

/-! ### Step equations for the loop

Readable rewriting lemmas for the four loop branches plus the exit case, used
throughout the chunk-equivalence development. -/

/-- Loop exit: outside `o < B.length - 4`, any fuel. -/
theorem parseGo_exit (fuel : Nat) (B : List Nat) (o : Nat) (st : ParserState)
    (h : ¬ o < B.length - 4) : parseGo fuel B o st = (o, [], st) := by
  cases fuel with
  | zero => rfl
  | succ fuel => rw [parseGo, if_neg h]

/-- New complete message: the declared length fits the buffer. -/
theorem parseGo_none_msg (fuel : Nat) (B : List Nat) (o : Nat) (st : ParserState)
    (hst : st.curType = none) (hr : st.curRead = 0) (hg : o < B.length - 4)
    (hfit : declaredLenAt B o ≤ B.length - (o + 1)) :
    parseGo (fuel + 1) B o st =
      ((parseGo fuel B (o + 1 + declaredLenAt B o) (msgComplete st)).1,
        ProtoMessage.Msg (B.getD o 0) o (o + declaredLenAt B o) ::
          (parseGo fuel B (o + 1 + declaredLenAt B o) (msgComplete st)).2.1,
        (parseGo fuel B (o + 1 + declaredLenAt B o) (msgComplete st)).2.2) := by
  rw [parseGo, if_pos hg]
  rw [hst]
  dsimp only
  rw [hr]
  have hbtr : min (B.length - (o + 1)) (declaredLenAt B o - 0) = declaredLenAt B o := by
    simp only [Nat.sub_zero]
    exact min_eq_right hfit
  rw [hbtr]
  rw [if_pos (by omega)]

/-- New message overflows the buffer: a `Frag` to the end of the buffer. -/
theorem parseGo_none_frag (fuel : Nat) (B : List Nat) (o : Nat) (st : ParserState)
    (hst : st.curType = none) (hr : st.curRead = 0) (hg : o < B.length - 4)
    (hov : B.length - (o + 1) < declaredLenAt B o) :
    parseGo (fuel + 1) B o st =
      (B.length, [ProtoMessage.Frag (B.getD o 0) o (B.length - 1)],
        { st with curType := some (B.getD o 0), curLen := declaredLenAt B o,
                  curRead := B.length - (o + 1) }) := by
  rw [parseGo, if_pos hg]
  rw [hst]
  dsimp only
  rw [hr]
  have hbtr : min (B.length - (o + 1)) (declaredLenAt B o - 0) = B.length - (o + 1) := by
    simp only [Nat.sub_zero]
    exact min_eq_left hov.le
  rw [hbtr]
  rw [if_neg (by omega)]
  have ho1 : o + 1 + (B.length - (o + 1)) = B.length := by omega
  rw [ho1, parseGo_exit fuel B B.length _ (by omega)]
  have ho2 : o + (B.length - (o + 1)) = B.length - 1 := by omega
  rw [ho2, Nat.zero_add]

/-- Pending partial completes: the remainder fits the buffer. -/
theorem parseGo_some_end (fuel : Nat) (B : List Nat) (st : ParserState) (t : Nat)
    (hst : st.curType = some t) (hwf : st.curRead < st.curLen) (hg : 0 < B.length - 4)
    (hfit : st.curLen - st.curRead ≤ B.length) :
    parseGo (fuel + 1) B 0 st =
      ((parseGo fuel B (st.curLen - st.curRead) (msgComplete st)).1,
        ProtoMessage.FragEnd t (st.curLen - st.curRead - 1) ::
          (parseGo fuel B (st.curLen - st.curRead) (msgComplete st)).2.1,
        (parseGo fuel B (st.curLen - st.curRead) (msgComplete st)).2.2) := by
  rw [parseGo, if_pos hg]
  rw [hst]
  dsimp only
  have hbtr : min B.length (st.curLen - st.curRead) = st.curLen - st.curRead :=
    min_eq_right hfit
  rw [hbtr]
  rw [if_pos ⟨by omega, rfl⟩]
  rw [Nat.zero_add]

/-- Pending partial still does not fit: the whole buffer is one `Frag`. -/
theorem parseGo_some_frag (fuel : Nat) (B : List Nat) (st : ParserState) (t : Nat)
    (hst : st.curType = some t) (hg : 0 < B.length - 4)
    (hov : B.length < st.curLen - st.curRead) :
    parseGo (fuel + 1) B 0 st =
      (B.length, [ProtoMessage.Frag t 0 (B.length - 1)],
        { st with curRead := st.curRead + B.length }) := by
  rw [parseGo, if_pos hg]
  rw [hst]
  dsimp only
  have hbtr : min B.length (st.curLen - st.curRead) = B.length := min_eq_left hov.le
  rw [hbtr]
  rw [if_neg (by omega)]
  rw [Nat.zero_add, parseGo_exit fuel B B.length _ (by omega)]

/-- Fidelity check (Rust test `it_can_parse_a_partial_and_skip_insufficient_buffer`). -/
example :
    parse freshState [67, 0, 0, 0, 13, 83, 69, 76, 69, 67, 84, 32, 49, 0, 67, 0, 0, 0] =
      (14, [ProtoMessage.Msg 67 0 13], freshState) := by decide

/-- Fidelity check (Rust test `it_can_parse_a_partial_over_several_buffers`). -/
example :
    (parse ⟨some 84, 29, 22, none, none, none⟩ [255, 0, 0, 0, 44, 0, 0]) =
      (7, [ProtoMessage.FragEnd 84 6], freshState) := by decide

/-- **C2.**  For every parser state and buffer, a `parse` call consumes all
but at most four bytes: the unconsumed tail `buffer.len() - n` is ≤ 4, so the
carried tail fits the 8-byte `incomplete_buffer` of `PgConn::new` and every
index `idx < incomplete_buffer_len` used by the copy loop of `read_and_parse`
is below 8. -/
theorem parse_unconsumed_at_most_four (st : ParserState) (B : List Nat) :
    B.length - (parse st B).1 ≤ 4 ∧ (parse st B).1 ≤ B.length ∧
      (∀ idx, idx < B.length - (parse st B).1 → idx < 8) := by
  unfold parse
  by_cases h : B.length < 5
  · rw [if_pos h]
    exact ⟨by omega, by omega, fun idx hi => by omega⟩
  · rw [if_neg h]
    have hflag : (if st.curType.isSome then 1 else 0) ≤ 1 := by split <;> omega
    have hb := parseGo_bounds (B.length + 2) B 0 st (by omega) (by omega)
      (fun _ => Or.inl rfl)
    exact ⟨by omega, hb.1, fun idx hi => by omega⟩

/-! ## Transaction detection -/

/-- Shared shape lemma: `transaction_type` only answers on a complete
six-byte `'Z'` message. -/
theorem transaction_type_shape (m : ProtoMessage) (buffer : List Nat) (status : Nat)
    (h : transaction_type m buffer = some status) :
    ∃ s e, m = ProtoMessage.Msg 90 s e ∧ e - s = 5 := by
  match m with
  | ProtoMessage.Msg t s e =>
    have h' : (if t = 90 then (if e - s = 5 then buffer.get? (s + 5) else none) else none) =
        some status := h
    by_cases ht : t = 90
    · subst ht
      by_cases he : e - s = 5
      · exact ⟨s, e, rfl, he⟩
      · rw [if_pos rfl, if_neg he] at h'; cases h'
    · rw [if_neg ht] at h'; cases h'
  | ProtoMessage.Frag t s e => simp [transaction_type] at h
  | ProtoMessage.FragEnd t e => simp [transaction_type] at h

/-- **C10.**  `transaction_type` returns `some status` only for a `Message`
descriptor with tag `'Z'` (90) spanning exactly six bytes (`end - start = 5`);
on every `Partial` (`Frag`) and `PartialComplete` (`FragEnd`) descriptor it
returns `none`, so a ReadyForQuery split across two reads is never recognized
by the session driver as a transaction boundary. -/
theorem transaction_type_complete_z_only :
    (∀ (m : ProtoMessage) (buffer : List Nat) (status : Nat),
        transaction_type m buffer = some status →
          ∃ s e, m = ProtoMessage.Msg 90 s e ∧ e - s = 5) ∧
      (∀ (t s e : Nat) (buffer : List Nat),
        transaction_type (ProtoMessage.Frag t s e) buffer = none) ∧
      (∀ (t e : Nat) (buffer : List Nat),
        transaction_type (ProtoMessage.FragEnd t e) buffer = none) :=
  ⟨transaction_type_shape, fun _ _ _ _ => rfl, fun _ _ _ => rfl⟩

/-- Witness for C10 at the six-byte ReadyForQuery `Z 0 0 0 5 I`. -/
theorem transaction_type_complete_z_only_witness :
    ∃ s e, ProtoMessage.Msg 90 0 5 = ProtoMessage.Msg 90 s e ∧ e - s = 5 :=
  transaction_type_complete_z_only.1 (ProtoMessage.Msg 90 0 5) [90, 0, 0, 0, 5, 73] 73
    (by decide)

/-! ## Undersized declared lengths (claim C5) -/

/-- **C5 (counterexample).**  On a buffer whose first frame declares length
3 < 4, `parse` does not fail: it returns normally (the Rust `parse` has no
error path whatsoever) and emits a `Message` descriptor for that frame. -/
theorem invalid_frame_counterexample :
    parse freshState [67, 0, 0, 0, 3, 9, 9, 9] = (4, [ProtoMessage.Msg 67 0 3], freshState) ∧
      (parse freshState [67, 0, 0, 0, 3, 9, 9, 9]).2.1 ≠ [] := by decide

/-- **C5 (amended).**  `parse` performs no validation of the declared length:
at a new frame whose declared 32-bit length `L` is below 4 it emits
`Message(tag, start, start + L)` — a malformed range that stops inside the
length field itself — and continues parsing; no error is raised. -/
theorem undersized_length_emits_descriptor (tag b1 b2 b3 b4 : Nat) (rest : List Nat)
    (hL : i32AsUsize (readI32BE b1 b2 b3 b4) < 4) :
    (parse freshState (tag :: b1 :: b2 :: b3 :: b4 :: rest)).2.1.head? =
      some (ProtoMessage.Msg tag 0 (i32AsUsize (readI32BE b1 b2 b3 b4))) := by
  set B := tag :: b1 :: b2 :: b3 :: b4 :: rest with hB
  have hlen : B.length = 5 + rest.length := by simp [hB]; omega
  have hdecl : declaredLenAt B 0 = i32AsUsize (readI32BE b1 b2 b3 b4) := by
    simp [declaredLenAt, hB]
  unfold parse
  rw [if_neg (by omega)]
  have hfuel : B.length + 2 = B.length + 1 + 1 := rfl
  rw [hfuel, parseGo_none_msg (B.length + 1) B 0 freshState rfl rfl (by omega) (by omega)]
  simp [hdecl, hB]

/-- Witness for C5 (amended) at the counterexample's frame. -/
theorem undersized_length_emits_descriptor_witness :
    (parse freshState (67 :: 0 :: 0 :: 0 :: 3 :: [9, 9, 9])).2.1.head? =
      some (ProtoMessage.Msg 67 0 (i32AsUsize (readI32BE 0 0 0 3))) :=
  undersized_length_emits_descriptor 67 0 0 0 3 [9, 9, 9] (by decide)

/-! ## EOF handling (claim C7) -/

/-- **C7.**  `read_and_parse` fails with `Disconnected` exactly when the
socket read returned zero bytes, and in that case `is_broken` is set before
returning. -/
theorem read_and_parse_disconnected_iff (c : PgConn) (r : ReadOutcome) :
    ((read_and_parse c r).2 = Except.error ReadError.disconnected ↔ r = ReadOutcome.bytes []) ∧
      (r = ReadOutcome.bytes [] → (read_and_parse c r).1.isBroken = true) := by
  constructor
  · cases r with
    | ioError => simp [read_and_parse]
    | bytes data =>
      by_cases hd : data.length = 0
      · have hd' : data = [] := List.length_eq_zero.mp hd
        subst hd'
        simp [read_and_parse]
      · rw [show read_and_parse c (ReadOutcome.bytes data) =
            (let B := c.carry ++ data
             let p := parse c.parser B
             ({ c with parser := p.2.2, carry := B.drop p.1, msgs := c.msgs ++ p.2.1 },
              Except.ok p.1)) from by rw [read_and_parse, if_neg hd]]
        constructor
        · intro h; cases h
        · intro h
          cases h
          exact absurd rfl hd
  · intro h
    subst h
    simp [read_and_parse]

/-- Witness for C7: after an EOF read the connection is flagged broken. -/
theorem read_and_parse_disconnected_iff_witness :
    (read_and_parse ⟨freshState, [], false, false, []⟩ (ReadOutcome.bytes [])).1.isBroken =
      true :=
  (read_and_parse_disconnected_iff ⟨freshState, [], false, false, []⟩
    (ReadOutcome.bytes [])).2 rfl

/-! ## Timed writes (claim C8) -/

/-- **C8.**  With a timeout, `write_all_with_timeout` returns the sentinel
`Ok(None)` exactly when the timeout elapses before the payload is written, and
`Ok(Some(buffer.len()))` when the write completes in time; an elapsed timeout
is never surfaced as an error (the error result occurs exactly for an I/O
failure of the underlying write, timeout or not). -/
theorem write_timeout_is_value_not_error (buffer : List Nat) (t : Nat) (w : WriteOutcome) :
    (write_all_with_timeout buffer (some t) w = Except.ok none ↔ w = WriteOutcome.doneLate) ∧
      (w = WriteOutcome.doneWithin →
        write_all_with_timeout buffer (some t) w = Except.ok (some buffer.length)) ∧
      (∀ timeout : Option Nat,
        write_all_with_timeout buffer timeout w = Except.error () ↔ w = WriteOutcome.ioError) := by
  refine ⟨?_, ?_, ?_⟩
  · cases w <;> simp [write_all_with_timeout]
  · intro h; subst h; rfl
  · intro timeout
    cases timeout <;> cases w <;> simp [write_all_with_timeout]

/-- Witness for C8 at a three-byte payload and a completed write. -/
theorem write_timeout_is_value_not_error_witness :
    write_all_with_timeout [1, 2, 3] (some 5) WriteOutcome.doneWithin =
      Except.ok (some ([1, 2, 3] : List Nat).length) :=
  (write_timeout_is_value_not_error [1, 2, 3] 5 WriteOutcome.doneWithin).2.1 rfl

/-! ## Pool return policy and the transaction flag (claim C3) -/

/-- **C3.**  (i) A returned server connection is re-inserted into the pool
exactly when `is_broken` and `is_active_transaction` are both false
(`has_broken` of pool.rs returns their disjunction, and the pool retires a
connection iff it holds).  (ii) In the transaction loop's server-message
drain, the `is_active_transaction` flag moves from `true` to `false` only by
popping a descriptor that is a complete `'Z'` message spanning six bytes whose
status byte is `'I'`. -/
theorem pool_reinsertion_and_txn_clear :
    (∀ c : PgConn, poolReinserts c = true ↔
        c.isBroken = false ∧ c.isActiveTransaction = false) ∧
      (∀ (buffer : List Nat) (msgs : List ProtoMessage),
        (drainServerMsgs buffer msgs true).1 = false →
          ∃ m ∈ msgs, m.msg_tag = 90 ∧ transaction_type m buffer = some 73 ∧
            ∃ s e, m = ProtoMessage.Msg 90 s e ∧ e - s = 5) := by
  constructor
  · intro c
    cases hb : c.isBroken <;> cases ha : c.isActiveTransaction <;>
      simp [poolReinserts, has_broken, hb, ha]
  · intro buffer msgs
    induction msgs with
    | nil => intro h; cases h
    | cons m rest ih =>
      intro h
      rw [drainServerMsgs] at h
      by_cases hz : m.msg_tag = 90
      · rw [if_pos hz] at h
        by_cases hi : transaction_type m buffer = some 73
        · exact ⟨m, List.mem_cons_self m rest, hz, hi, transaction_type_shape m buffer 73 hi⟩
        · rw [if_neg hi] at h
          obtain ⟨m', hmem, hrest⟩ := ih h
          exact ⟨m', List.mem_cons_of_mem m hmem, hrest⟩
      · rw [if_neg hz] at h
        by_cases hx : m.msg_tag = 88
        · rw [if_pos hx] at h; cases h
        · rw [if_neg hx] at h
          obtain ⟨m', hmem, hrest⟩ := ih h
          exact ⟨m', List.mem_cons_of_mem m hmem, hrest⟩

/-- Witness for C3: draining the single complete ReadyForQuery(I) clears the
flag via exactly such a descriptor. -/
theorem pool_reinsertion_and_txn_clear_witness :
    ∃ m ∈ [ProtoMessage.Msg 90 0 5], m.msg_tag = 90 ∧
      transaction_type m [90, 0, 0, 0, 5, 73] = some 73 ∧
        ∃ s e, m = ProtoMessage.Msg 90 s e ∧ e - s = 5 :=
  pool_reinsertion_and_txn_clear.2 [90, 0, 0, 0, 5, 73] [ProtoMessage.Msg 90 0 5] (by decide)

/-! ## MD5 password message (claim C6) -/

/-- `hexBytes` doubles the length. -/
theorem hexBytes_length (l : List Nat) : (hexBytes l).length = 2 * l.length := by
  induction l with
  | nil => rfl
  | cons b r ih => simp [hexBytes, ih]; omega

/-- An MD5 digest is sixteen bytes. -/
theorem md5Digest_length (msg : List Nat) : (md5Digest msg).length = 16 := by
  simp [md5Digest, le32]

/-- An MD5 hex rendering is thirty-two bytes. -/
theorem md5Hex_length (msg : List Nat) : (md5Hex msg).length = 32 := by
  simp [md5Hex, hexBytes_length, md5Digest_length]

set_option maxRecDepth 40000 in
/-- **C6.**  `password_md5` always produces `'p'`, the big-endian i32 value 40
(the byte count after the tag), the ASCII bytes `"md5"` followed by
`hex(md5(hex(md5(password ++ username)) ++ salt))`, and one terminating NUL;
and at the spec's concrete inputs (user `testuser`, password `123456`, salt
`17 F5 9E 3E`) it equals `'p' 0 0 0 0x28 "md5c7342a0451b0de1a27c3e7e31776792e" 0`. -/
theorem password_md5_layout_and_vector :
    (∀ username password salt : List Nat,
        password_md5 username password salt =
          [112] ++ writeI32BE 40 ++
            ([109, 100, 53] ++ md5Hex (md5Hex (password ++ username) ++ salt)) ++ [0]) ∧
      password_md5 [116, 101, 115, 116, 117, 115, 101, 114] [49, 50, 51, 52, 53, 54]
          [0x17, 0xF5, 0x9E, 0x3E] =
        [112, 0, 0, 0, 40, 109, 100, 53, 99, 55, 51, 52, 50, 97, 48, 52, 53, 49, 98, 48,
         100, 101, 49, 97, 50, 55, 99, 51, 101, 55, 101, 51, 49, 55, 55, 54, 55, 57, 50,
         101, 0] := by
  constructor
  · intro username password salt
    have h32 : (md5Hex (md5Hex (password ++ username) ++ salt)).length = 32 :=
      md5Hex_length _
    simp only [password_md5, writeLenAt1, List.cons_append, List.nil_append,
      List.append_assoc]
    simp [List.length_append, h32]
  · decide

/-! ## Upstream startup synthesis (claim C9) -/

/-- `bmGet` after `bmInsert` at the same key. -/
theorem bmGet_bmInsert_self {α : Type} (k : List Nat) (v : α) (m : List (List Nat × α)) :
    bmGet k (bmInsert k v m) = some v := by
  induction m with
  | nil => simp [bmInsert, bmGet]
  | cons a rest ih =>
    obtain ⟨k', v'⟩ := a
    rw [bmInsert]
    by_cases h1 : bytesLt k k'
    · rw [if_pos h1]; simp [bmGet]
    · rw [if_neg h1]
      by_cases h2 : k = k'
      · rw [if_pos h2]; simp [bmGet]
      · rw [if_neg h2]
        rw [bmGet, if_neg h2]
        exact ih

/-- `bmGet` after `bmInsert` at a different key. -/
theorem bmGet_bmInsert_ne {α : Type} (k j : List Nat) (v : α) (m : List (List Nat × α))
    (hne : j ≠ k) : bmGet j (bmInsert k v m) = bmGet j m := by
  induction m with
  | nil => simp [bmInsert, bmGet, hne]
  | cons a rest ih =>
    obtain ⟨k', v'⟩ := a
    rw [bmInsert]
    by_cases h1 : bytesLt k k'
    · rw [if_pos h1]
      rw [bmGet, if_neg hne]
    · rw [if_neg h1]
      by_cases h2 : k = k'
      · rw [if_pos h2]
        subst h2
        rw [bmGet, if_neg hne, bmGet, if_neg hne]
      · rw [if_neg h2]
        rw [bmGet, bmGet]
        by_cases h3 : j = k'
        · rw [if_pos h3, if_pos h3]
        · rw [if_neg h3, if_neg h3]
          exact ih

/-- The configured overlay of `connect` is the two-entry sorted map. -/
theorem startup_parameters_eq (d : Database) :
    d.startup_parameters = [(kDatabase, d.dbname), (kUser, d.user)] := rfl

/-- **C9.**  The startup message `PgConnPool::connect` sends upstream is the
client's cached `StartupMessage` with `database` replaced by the configured
`dbname`, `user` replaced by the configured `user` — both drawn from the
configuration entry found under the client-supplied database name used as an
alias — and `application_name` set to `"tusq"`; the protocol version and every
other parameter are unchanged. -/
theorem connect_startup_overlay (databases : List (List Nat × Database))
    (clientSM : StartupMessage) (dbname : List Nat) (d : Database)
    (h1 : clientSM.databaseName = some dbname) (h2 : bmGet dbname databases = some d) :
    connectUpstreamMessage databases clientSM = some (connectStartupMessage clientSM d) ∧
      (connectStartupMessage clientSM d).protocolVersion = clientSM.protocolVersion ∧
      bmGet kDatabase (connectStartupMessage clientSM d).parameters = some d.dbname ∧
      bmGet kUser (connectStartupMessage clientSM d).parameters = some d.user ∧
      bmGet kApplicationName (connectStartupMessage clientSM d).parameters = some vTusq ∧
      (∀ k, k ≠ kDatabase → k ≠ kUser → k ≠ kApplicationName →
        bmGet k (connectStartupMessage clientSM d).parameters = bmGet k clientSM.parameters) := by
  have hparams : (connectStartupMessage clientSM d).parameters =
      bmInsert kApplicationName vTusq
        (bmInsert kUser d.user (bmInsert kDatabase d.dbname clientSM.parameters)) := by
    simp [connectStartupMessage, startup_parameters_eq]
  refine ⟨?_, rfl, ?_, ?_, ?_, ?_⟩
  · simp [connectUpstreamMessage, h1, h2]
  · rw [hparams, bmGet_bmInsert_ne _ _ _ _ (by decide), bmGet_bmInsert_ne _ _ _ _ (by decide),
      bmGet_bmInsert_self]
  · rw [hparams, bmGet_bmInsert_ne _ _ _ _ (by decide), bmGet_bmInsert_self]
  · rw [hparams, bmGet_bmInsert_self]
  · intro k hk1 hk2 hk3
    rw [hparams, bmGet_bmInsert_ne _ _ _ _ hk3, bmGet_bmInsert_ne _ _ _ _ hk2,
      bmGet_bmInsert_ne _ _ _ _ hk1]

/-- Witness for C9 at a one-entry configuration. -/
theorem connect_startup_overlay_witness :
    connectUpstreamMessage
        [([97], ⟨[100, 98], [117, 49], [104], none, [53], 25⟩)]
        ⟨196608, [(kDatabase, [97])]⟩ =
      some (connectStartupMessage ⟨196608, [(kDatabase, [97])]⟩
        ⟨[100, 98], [117, 49], [104], none, [53], 25⟩) :=
  (connect_startup_overlay [([97], ⟨[100, 98], [117, 49], [104], none, [53], 25⟩)]
    ⟨196608, [(kDatabase, [97])]⟩ [97] ⟨[100, 98], [117, 49], [104], none, [53], 25⟩
    (by decide) (by decide)).1

/-! ## Startup round-trip (claim C4) -/

/-- `getD` through `drop`. -/
theorem getD_drop_eq (B : List Nat) : ∀ (o i d : Nat), (B.drop o).getD i d = B.getD (o + i) d := by
  induction B with
  | nil => intro o i d; simp [List.drop_nil]
  | cons b rest ih =>
    intro o i d
    cases o with
    | zero => simp
    | succ o =>
      rw [List.drop_succ_cons, ih o i d]
      have : o + 1 + i = (o + i) + 1 := by omega
      rw [this, List.getD_cons_succ]

/-- `bytesLt` is irreflexive. -/
theorem bytesLt_irrefl (a : List Nat) : bytesLt a a = false := by
  induction a with
  | nil => rfl
  | cons x xs ih => simp [bytesLt, ih]

/-- `bytesLt` is asymmetric. -/
theorem bytesLt_asymm : ∀ a b : List Nat, bytesLt a b = true → bytesLt b a = true → False := by
  intro a
  induction a with
  | nil =>
    intro b h1 h2
    cases b with
    | nil => simp [bytesLt] at h1
    | cons y ys => simp [bytesLt] at h2
  | cons x xs ih =>
    intro b h1 h2
    cases b with
    | nil => simp [bytesLt] at h1
    | cons y ys =>
      simp only [bytesLt, Bool.or_eq_true, Bool.and_eq_true, decide_eq_true_eq] at h1 h2
      rcases h1 with h1 | ⟨h1e, h1r⟩
      · rcases h2 with h2 | ⟨h2e, _⟩
        · omega
        · omega
      · rcases h2 with h2 | ⟨_, h2r⟩
        · omega
        · exact ih ys h1r h2r

/-- Inserting a key above every key of the map appends. -/
theorem bmInsert_append_of_gt {α : Type} (k : List Nat) (v : α) :
    ∀ acc : List (List Nat × α), (∀ a ∈ acc, bytesLt a.1 k = true) →
      bmInsert k v acc = acc ++ [(k, v)] := by
  intro acc
  induction acc with
  | nil => intro _; rfl
  | cons a rest ih =>
    intro hall
    have ha := hall a (List.mem_cons_self a rest)
    have h1 : ¬ (bytesLt k a.1 = true) := fun h => bytesLt_asymm a.1 k ha h
    have h2 : ¬ (k = a.1) := by
      intro he
      rw [he] at ha
      rw [bytesLt_irrefl] at ha
      cases ha
    obtain ⟨a1, a2⟩ := a
    rw [bmInsert, if_neg h1, if_neg h2, ih (fun p hp => hall p (List.mem_cons_of_mem _ hp))]
    rfl

/-- Re-inserting a strictly sorted parameter list in order reproduces it. -/
theorem foldl_bmInsert_pairwise {α : Type} :
    ∀ (ps acc : List (List Nat × α)),
      List.Pairwise (fun a b => bytesLt a.1 b.1 = true) (acc ++ ps) →
      ps.foldl (fun m p => bmInsert p.1 p.2 m) acc = acc ++ ps := by
  intro ps
  induction ps with
  | nil => intro acc _; simp
  | cons p rest ih =>
    intro acc hp
    rw [List.foldl_cons]
    have hacc : ∀ a ∈ acc, bytesLt a.1 p.1 = true := by
      intro a ha
      exact (List.pairwise_append.mp hp).2.2 a ha p (List.mem_cons_self p rest)
    rw [bmInsert_append_of_gt p.1 p.2 acc hacc]
    have hassoc : (acc ++ [p]) ++ rest = acc ++ p :: rest := by simp
    have := ih (acc ++ [p]) (by rw [hassoc]; exact hp)
    rw [this, hassoc]

/-- `memchr` on a string with no interior NUL followed by its terminator. -/
theorem idxOf0_append (k r : List Nat) (hk : ¬ 0 ∈ k) :
    idxOf0 (k ++ 0 :: r) = some k.length := by
  induction k with
  | nil => rfl
  | cons x xs ih =>
    have hx : ¬ (x = 0) := fun h => hk (by simp [h])
    simp [idxOf0, hx, ih (fun h => hk (List.mem_cons_of_mem _ h))]

/-- `readCStr` on a well-formed parameter string. -/
theorem readCStr_spec (B : List Nat) (o : Nat) (k r : List Nat)
    (hdrop : B.drop o = k ++ 0 :: r) (hk0 : ¬ 0 ∈ k) (hutf : utf8Valid k = true) :
    readCStr B o = some (k, o + k.length + 1) := by
  unfold readCStr
  rw [hdrop, idxOf0_append k r hk0]
  have htake : (k ++ 0 :: r).take k.length = k := List.take_left k (0 :: r)
  simp [htake, hutf]

/-- `write_i32` then `read_i32` round-trips on the i32 range. -/
theorem readI32_writeI32 (v : Int) (h1 : -2 ^ 31 ≤ v) (h2 : v < 2 ^ 31) :
    readI32BE ((writeI32BE v).getD 0 0) ((writeI32BE v).getD 1 0)
      ((writeI32BE v).getD 2 0) ((writeI32BE v).getD 3 0) = v := by
  simp only [writeI32BE, List.getD_cons_zero, List.getD_cons_succ]
  rw [readI32BE]
  have hu : ((v % 2 ^ 32).toNat : Int) = v % 2 ^ 32 := by omega
  split <;> omega

/-- `i32 as usize` of a non-negative value in range. -/
theorem i32AsUsize_nonneg (v : Int) (h1 : 0 ≤ v) (h2 : v < 2 ^ 63) :
    (i32AsUsize v : Int) = v := by
  simp only [i32AsUsize]
  omega

/-- The parameter loop consumes `paramsBytes ps ++ [0]`, inserting every pair
in order, and resets the parser to `freshState`. -/
theorem startupParams_run (B : List Nat) (ps : List (List Nat × List Nat))
    (hps : ∀ p ∈ ps, p.1 ≠ [] ∧ ¬ 0 ∈ p.1 ∧ ¬ 0 ∈ p.2 ∧
      utf8Valid p.1 = true ∧ utf8Valid p.2 = true) :
    ∀ (fuel o : Nat) (st : ParserState) (sm : StartupMessage),
      ps.length < fuel →
      B.drop o = paramsBytes ps ++ [0] →
      st.paramKey = none → st.paramValue = none → st.startupMsg = some sm →
      startupParams fuel B o st =
        some (o + (paramsBytes ps).length + 1,
          some (ProtoStartup.Message
            { sm with parameters := ps.foldl (fun m p => bmInsert p.1 p.2 m) sm.parameters }),
          freshState) := by
  induction ps with
  | nil =>
    intro fuel o st sm hfuel hdrop hk hv hsm
    obtain ⟨ct, cl, cr, smsg, pk, pv⟩ := st
    simp only at hk hv hsm
    subst hk; subst hv; subst hsm
    cases fuel with
    | zero => omega
    | succ fuel =>
      rw [startupParams]
      have hne : B.drop o ≠ [] := by rw [hdrop]; simp [paramsBytes]
      have ho : o < B.length := by
        by_contra hcon
        exact hne (List.drop_eq_nil_of_le (by omega))
      rw [if_pos ho]
      have hb : B.getD o 0 = 0 := by
        have hgd : (B.drop o).getD 0 0 = B.getD o 0 := getD_drop_eq B o 0 0
        rw [← hgd, hdrop]
        rfl
      rw [if_pos hb]
      simp [paramsBytes, msgComplete, freshState]
  | cons p rest ih =>
    intro fuel o st sm hfuel hdrop hk hv hsm
    obtain ⟨k, v⟩ := p
    obtain ⟨hkne, hk0, hv0, hkutf, hvutf⟩ := hps (k, v) (List.mem_cons_self _ _)
    obtain ⟨ct, cl, cr, smsg, pk, pv⟩ := st
    simp only at hk hv hsm
    subst hk; subst hv; subst hsm
    cases fuel with
    | zero => omega
    | succ fuel =>
      have hdrop1 : B.drop o = k ++ 0 :: (v ++ 0 :: (paramsBytes rest ++ [0])) := by
        rw [hdrop]; simp [paramsBytes]
      rw [startupParams]
      have hne : B.drop o ≠ [] := by
        rw [hdrop1]
        cases k <;> simp
      have ho : o < B.length := by
        by_contra hcon
        exact hne (List.drop_eq_nil_of_le (by omega))
      rw [if_pos ho]
      have hb : ¬ (B.getD o 0 = 0) := by
        have hgd : (B.drop o).getD 0 0 = B.getD o 0 := getD_drop_eq B o 0 0
        rw [← hgd, hdrop1]
        cases k with
        | nil => exact absurd rfl hkne
        | cons kh kt =>
          have hkh : ¬ (kh = 0) := fun h => hk0 (by simp [h])
          simpa using hkh
      rw [if_neg hb]
      have hread1 : readCStr B o = some (k, o + k.length + 1) :=
        readCStr_spec B o k _ hdrop1 hk0 hkutf
      have hdrop2 : B.drop (o + k.length + 1) = v ++ 0 :: (paramsBytes rest ++ [0]) := by
        have harr : o + k.length + 1 = o + (k.length + 1) := by omega
        rw [harr, ← List.drop_drop, hdrop1]
        have : k ++ 0 :: (v ++ 0 :: (paramsBytes rest ++ [0])) =
            (k ++ [0]) ++ (v ++ 0 :: (paramsBytes rest ++ [0])) := by simp
        rw [this]
        have hl : (k ++ [0]).length = k.length + 1 := by simp
        rw [← hl, List.drop_left]
      have hread2 : readCStr B (o + k.length + 1) =
          some (v, o + k.length + 1 + v.length + 1) :=
        readCStr_spec B _ v _ hdrop2 hv0 hvutf
      simp only [hread1, hread2, Option.map_some']
      have hdrop3 : B.drop (o + k.length + 1 + v.length + 1) = paramsBytes rest ++ [0] := by
        have harr : o + k.length + 1 + v.length + 1 = (o + k.length + 1) + (v.length + 1) := by
          omega
        rw [harr, ← List.drop_drop, hdrop2]
        have : v ++ 0 :: (paramsBytes rest ++ [0]) =
            (v ++ [0]) ++ (paramsBytes rest ++ [0]) := by simp
        rw [this]
        have hl : (v ++ [0]).length = v.length + 1 := by simp
        rw [← hl, List.drop_left]
      rw [ih (fun q hq => hps q (List.mem_cons_of_mem _ hq)) fuel _ _ _ (by
          simp at hfuel ⊢; omega) hdrop3 rfl rfl rfl]
      have harith : o + k.length + 1 + v.length + 1 + (paramsBytes rest).length + 1 =
          o + (paramsBytes ((k, v) :: rest)).length + 1 := by
        simp [paramsBytes]
        omega
      rw [harith]
      rfl

/-- `writeI32BE` always yields four bytes. -/
theorem writeI32BE_length (v : Int) : (writeI32BE v).length = 4 := rfl

/-- Parameter count is bounded by the encoded byte count. -/
theorem paramsBytes_length_ge (ps : List (List Nat × List Nat)) :
    ps.length ≤ (paramsBytes ps).length := by
  induction ps with
  | nil => simp [paramsBytes]
  | cons p rest ih => simp [paramsBytes]; omega

/-- **C4 (counterexample).**  The message `M = (196608, {"" ↦ ""})` has no NUL
byte in any key or value, yet `parse_startup (as_bytes M)` consumes only 9 of
the 11 bytes and yields a message with no parameters at all: the empty key's
terminator is mistaken for the end-of-parameters NUL. -/
theorem startup_roundtrip_counterexample :
    parse_startup freshState (StartupMessage.asBytes ⟨196608, [([], [])]⟩) =
        some (9, some (ProtoStartup.Message ⟨196608, []⟩), freshState) ∧
      (StartupMessage.asBytes ⟨196608, [([], [])]⟩).length = 11 ∧
      (⟨196608, []⟩ : StartupMessage) ≠ ⟨196608, [([], [])]⟩ := by decide

/-- **C4 (amended).**  For a `StartupMessage` whose parameter map is strictly
key-sorted with non-empty NUL-free UTF-8 keys and NUL-free UTF-8 values, whose
protocol version is a genuine i32, whose encoding is shorter than 2^31 bytes,
and which does not collide with the CancelRequest signature
(version 80877102 with a 16-byte encoding), `parse_startup (as_bytes M)`
consumes the entire vector and returns `Regular(M)` exactly. -/
theorem startup_roundtrip (m : StartupMessage)
    (hsort : List.Pairwise (fun a b => bytesLt a.1 b.1 = true) m.parameters)
    (hps : ∀ p ∈ m.parameters, p.1 ≠ [] ∧ ¬ 0 ∈ p.1 ∧ ¬ 0 ∈ p.2 ∧
      utf8Valid p.1 = true ∧ utf8Valid p.2 = true)
    (hv1 : -2 ^ 31 ≤ m.protocolVersion) (hv2 : m.protocolVersion < 2 ^ 31)
    (hlen : m.asBytes.length < 2 ^ 31)
    (hcr : ¬(m.protocolVersion = 80877102 ∧ m.asBytes.length = 16)) :
    parse_startup freshState m.asBytes =
      some (m.asBytes.length, some (ProtoStartup.Message m), freshState) := by
  obtain ⟨ver, ps⟩ := m
  simp only at hsort hps hv1 hv2 hlen hcr ⊢
  set B := StartupMessage.asBytes ⟨ver, ps⟩ with hB
  have hBdef : B = writeI32BE ((4 : Int) + (writeI32BE ver ++ paramsBytes ps ++ [0]).length) ++
      (writeI32BE ver ++ paramsBytes ps ++ [0]) := rfl
  have hBlen : B.length = 9 + (paramsBytes ps).length := by
    rw [hBdef]
    simp [writeI32BE_length, List.length_append]
    omega
  have hbodylen : ((writeI32BE ver ++ paramsBytes ps ++ [0]) : List Nat).length =
      5 + (paramsBytes ps).length := by
    simp [writeI32BE_length, List.length_append]
    omega
  -- the length word round-trips to B.length
  have hL : ((4 : Int) + ((writeI32BE ver ++ paramsBytes ps ++ [0]) : List Nat).length) =
      (B.length : Int) := by
    rw [hBlen, hbodylen]
    push_cast
    ring
  have hhead : ∀ i, i < 4 → B.getD i 0 =
      (writeI32BE ((4 : Int) + ((writeI32BE ver ++ paramsBytes ps ++ [0]) : List Nat).length)).getD i 0 := by
    intro i hi
    rw [hBdef]
    exact List.getD_append _ _ 0 i (by rw [writeI32BE_length]; omega)
  have hread0 : readI32BE (B.getD 0 0) (B.getD 1 0) (B.getD 2 0) (B.getD 3 0) =
      (B.length : Int) := by
    rw [hhead 0 (by omega), hhead 1 (by omega), hhead 2 (by omega), hhead 3 (by omega), ← hL]
    exact readI32_writeI32 _ (by omega) (by rw [hL]; exact_mod_cast hlen)
  have husize : i32AsUsize (readI32BE (B.getD 0 0) (B.getD 1 0) (B.getD 2 0) (B.getD 3 0)) =
      B.length := by
    rw [hread0]
    have := i32AsUsize_nonneg (B.length : Int) (by positivity) (by
      have : (B.length : Int) < 2 ^ 31 := by exact_mod_cast hlen
      omega)
    omega
  have hdrop4 : B.drop 4 = writeI32BE ver ++ paramsBytes ps ++ [0] := by
    rw [hBdef]
    rw [show (4 : Nat) = (writeI32BE ((4 : Int) +
      ((writeI32BE ver ++ paramsBytes ps ++ [0]) : List Nat).length)).length from rfl]
    exact List.drop_left _ _
  have hver : ∀ i, i < 4 → B.getD (4 + i) 0 = (writeI32BE ver).getD i 0 := by
    intro i hi
    have h1 : B.getD (4 + i) 0 = (B.drop 4).getD i 0 := (getD_drop_eq B 4 i 0).symm
    rw [h1, hdrop4, List.append_assoc]
    exact List.getD_append _ _ 0 i (by rw [writeI32BE_length]; omega)
  have hreadv : readI32BE (B.getD 4 0) (B.getD (4 + 1) 0) (B.getD (4 + 2) 0)
      (B.getD (4 + 3) 0) = ver := by
    rw [show (4 : Nat) = 4 + 0 from rfl]
    rw [hver 0 (by omega), hver 1 (by omega), hver 2 (by omega), hver 3 (by omega)]
    exact readI32_writeI32 ver hv1 hv2
  have hdrop8 : B.drop 8 = paramsBytes ps ++ [0] := by
    have h84 : (8 : Nat) = 4 + 4 := rfl
    rw [h84, ← List.drop_drop, hdrop4, List.append_assoc]
    rw [show (4 : Nat) = (writeI32BE ver).length from rfl]
    exact List.drop_left _ _
  -- stage 1: read the length word
  rw [parse_startup]
  simp only [freshState]
  rw [if_neg (by omega)]
  -- stage 2: read the version
  rw [parseStartupStage2]
  simp only
  rw [if_pos (by omega), if_neg (by omega)]
  rw [hreadv]
  -- stage 3: not a cancel request, not an SSL request
  rw [parseStartupStage3]
  simp only [husize, StartupMessage.new]
  rw [if_neg (by
    intro hcc
    exact hcr ⟨hcc.1, hcc.2⟩)]
  rw [if_neg (by
    intro hss
    omega)]
  -- parameter loop
  rw [startupParams_run B ps hps (2 * B.length + 4) 8 _ ⟨ver, []⟩ (by
      have := paramsBytes_length_ge ps
      omega) hdrop8 rfl rfl rfl]
  have hfold : ps.foldl (fun m p => bmInsert p.1 p.2 m) ([] : List (List Nat × List Nat)) =
      ps := by
    have := foldl_bmInsert_pairwise ps [] (by simpa using hsort)
    simpa using this
  rw [hfold]
  have : 8 + (paramsBytes ps).length + 1 = B.length := by omega
  rw [this]
  rfl

/-- Witness for C4 (amended) at a one-parameter message (`user ↦ pg`). -/
theorem startup_roundtrip_witness :
    parse_startup freshState (StartupMessage.asBytes ⟨196608, [(kUser, [112, 103])]⟩) =
      some ((StartupMessage.asBytes ⟨196608, [(kUser, [112, 103])]⟩).length,
        some (ProtoStartup.Message ⟨196608, [(kUser, [112, 103])]⟩), freshState) :=
  startup_roundtrip ⟨196608, [(kUser, [112, 103])]⟩ (by decide)
    (by decide) (by decide) (by decide) (by decide) (by decide)

/-! ## Chunk-feeding equivalence (claim C1)

The plan: `scan S k` (defined above) is the canonical frame decomposition of
the first `k` consumed bytes of a byte-stream suffix `S`, reading five-byte
headers out of all of `S` (the parser may peek past what it consumes).  We
prove that a `parse` call simulates `scan` — the call's merged descriptors are
exactly the canonical frames its consumption completes — then compose calls,
obtaining that any chunk-by-chunk feeding with the carry policy produces the
canonical frames of the prefix it consumed.  Two feedings of the same stream
can then only differ by one lagging behind the other near the tail. -/

/-- `scan` stop equation. -/
theorem scanGo_stop (fuel : Nat) (S : List Nat) (k : Nat)
    (h : ¬ (5 ≤ S.length ∧ 1 + declaredLen S ≤ k)) : scanGo fuel S k = ([], S, k) := by
  cases fuel with
  | zero => rfl
  | succ fuel => rw [scanGo, if_neg h]

/-- `scanGo` step equation. -/
theorem scanGo_step (fuel : Nat) (S : List Nat) (k : Nat)
    (h5 : 5 ≤ S.length) (hfit : 1 + declaredLen S ≤ k) :
    scanGo (fuel + 1) S k =
      ((S.getD 0 0, S.take (1 + declaredLen S)) ::
        (scanGo fuel (S.drop (1 + declaredLen S)) (k - (1 + declaredLen S))).1,
       (scanGo fuel (S.drop (1 + declaredLen S)) (k - (1 + declaredLen S))).2.1,
       (scanGo fuel (S.drop (1 + declaredLen S)) (k - (1 + declaredLen S))).2.2) := by
  rw [scanGo, if_pos ⟨h5, hfit⟩]

/-- The fuel is irrelevant once above the consumed count. -/
theorem scanGo_fuel (fuel : Nat) : ∀ (fuel' : Nat) (S : List Nat) (k : Nat),
    k < fuel → k < fuel' → scanGo fuel S k = scanGo fuel' S k := by
  induction fuel with
  | zero => intro fuel' S k h _; omega
  | succ fuel ih =>
    intro fuel' S k h h'
    by_cases hc : 5 ≤ S.length ∧ 1 + declaredLen S ≤ k
    · cases fuel' with
      | zero => omega
      | succ fuel' =>
        rw [scanGo_step fuel S k hc.1 hc.2, scanGo_step fuel' S k hc.1 hc.2]
        rw [ih fuel' _ _ (by omega) (by omega)]
    · rw [scanGo_stop _ _ _ hc, scanGo_stop _ _ _ hc]

/-- `scan` step equation. -/
theorem scan_step (S : List Nat) (k : Nat) (h5 : 5 ≤ S.length)
    (hfit : 1 + declaredLen S ≤ k) :
    scan S k =
      ((S.getD 0 0, S.take (1 + declaredLen S)) ::
        (scan (S.drop (1 + declaredLen S)) (k - (1 + declaredLen S))).1,
       (scan (S.drop (1 + declaredLen S)) (k - (1 + declaredLen S))).2.1,
       (scan (S.drop (1 + declaredLen S)) (k - (1 + declaredLen S))).2.2) := by
  rw [scan, show k + 1 = k + 1 from rfl]
  cases k with
  | zero => omega
  | succ k =>
    rw [scanGo_step (k + 1) S _ h5 hfit]
    rw [scan, scanGo_fuel (k + 1) (k + 1 - (1 + declaredLen S) + 1) _ _ (by omega) (by omega)]

/-- `scan` stop equation. -/
theorem scan_stop (S : List Nat) (k : Nat)
    (h : ¬ (5 ≤ S.length ∧ 1 + declaredLen S ≤ k)) : scan S k = ([], S, k) :=
  scanGo_stop _ _ _ h

/-- Structure of the `scan` result: the residue count is inside the rest,
bounded by the consumed count, and dropping it from the rest yields the
unconsumed suffix. -/
theorem scan_props (fuel : Nat) : ∀ (S : List Nat) (k : Nat), k < fuel → k ≤ S.length →
    (scan S k).2.1.drop (scan S k).2.2 = S.drop k ∧
      (scan S k).2.2 ≤ (scan S k).2.1.length ∧ (scan S k).2.2 ≤ k := by
  induction fuel with
  | zero => intro S k h _; omega
  | succ fuel ih =>
    intro S k h hk
    by_cases hc : 5 ≤ S.length ∧ 1 + declaredLen S ≤ k
    · rw [scan_step S k hc.1 hc.2]
      dsimp only
      have hih := ih (S.drop (1 + declaredLen S)) (k - (1 + declaredLen S)) (by omega)
        (by simp [List.length_drop]; omega)
      refine ⟨?_, hih.2.1, by omega⟩
      rw [hih.1, List.drop_drop]
      have : 1 + declaredLen S + (k - (1 + declaredLen S)) = k := by omega
      rw [this]
    · rw [scan_stop S k hc]
      dsimp only
      exact ⟨rfl, by omega, le_refl k⟩

/-- Reading a frame header is insensitive to extending the stream past the
first five bytes. -/
theorem declaredLen_append (S c : List Nat) (h5 : 5 ≤ S.length) :
    declaredLen (S ++ c) = declaredLen S := by
  unfold declaredLen
  rw [List.getD_append _ _ _ _ (by omega), List.getD_append _ _ _ _ (by omega),
    List.getD_append _ _ _ _ (by omega), List.getD_append _ _ _ _ (by omega)]

/-- Extending the stream by `c` and the consumption by `m` only rescans from
the old residue: the old frames stay, and the new scan continues on
`rest ++ c` with `kr + m` consumed. -/
theorem scan_extend (fuel : Nat) : ∀ (S : List Nat) (k : Nat) (c : List Nat) (m : Nat),
    k < fuel → k ≤ S.length →
    (scan (S ++ c) (k + m)).1 =
        (scan S k).1 ++ (scan ((scan S k).2.1 ++ c) ((scan S k).2.2 + m)).1 ∧
      (scan (S ++ c) (k + m)).2 = (scan ((scan S k).2.1 ++ c) ((scan S k).2.2 + m)).2 := by
  induction fuel with
  | zero => intro S k c m h _; omega
  | succ fuel ih =>
    intro S k c m h hk
    by_cases hc : 5 ≤ S.length ∧ 1 + declaredLen S ≤ k
    · obtain ⟨h5, hfit⟩ := hc
      have hL : declaredLen (S ++ c) = declaredLen S := declaredLen_append S c h5
      have hstep2 : scan (S ++ c) (k + m) =
          (((S ++ c).getD 0 0, (S ++ c).take (1 + declaredLen (S ++ c))) ::
            (scan ((S ++ c).drop (1 + declaredLen (S ++ c)))
              (k + m - (1 + declaredLen (S ++ c)))).1,
           (scan ((S ++ c).drop (1 + declaredLen (S ++ c)))
              (k + m - (1 + declaredLen (S ++ c)))).2.1,
           (scan ((S ++ c).drop (1 + declaredLen (S ++ c)))
              (k + m - (1 + declaredLen (S ++ c)))).2.2) :=
        scan_step (S ++ c) (k + m) (by simp [List.length_append]; omega) (by rw [hL]; omega)
      rw [hstep2, scan_step S k h5 hfit]
      have hsmall : 1 + declaredLen S ≤ S.length := by omega
      have htake : (S ++ c).take (1 + declaredLen (S ++ c)) = S.take (1 + declaredLen S) := by
        rw [hL]; exact List.take_append_of_le_length hsmall
      have hdrop : (S ++ c).drop (1 + declaredLen (S ++ c)) = S.drop (1 + declaredLen S) ++ c := by
        rw [hL]; exact List.drop_append_of_le_length hsmall
      have hget : (S ++ c).getD 0 0 = S.getD 0 0 := List.getD_append _ _ _ _ (by omega)
      have hkm : k + m - (1 + declaredLen (S ++ c)) = (k - (1 + declaredLen S)) + m := by
        rw [hL]; omega
      rw [htake, hdrop, hget, hkm]
      have hih := ih (S.drop (1 + declaredLen S)) (k - (1 + declaredLen S)) c m (by omega)
        (by simp [List.length_drop]; omega)
      rw [hih.1, hih.2]
      exact ⟨by simp, rfl⟩
    · rw [scan_stop S k hc]
      exact ⟨rfl, rfl⟩

/-- Merging distributes over concatenated histories. -/
theorem mergeGo_append : ∀ (h₁ h₂ : List (ProtoMessage × List Nat)) (p : Option (Nat × List Nat)),
    mergeGo p (h₁ ++ h₂) =
      ((mergeGo p h₁).1 ++ (mergeGo (mergeGo p h₁).2 h₂).1, (mergeGo (mergeGo p h₁).2 h₂).2) := by
  intro h₁
  induction h₁ with
  | nil => intro h₂ p; simp [mergeGo]
  | cons a rest ih =>
    intro h₂ p
    obtain ⟨m, B⟩ := a
    cases m with
    | Msg t s e =>
      simp only [List.cons_append, mergeGo, List.append_eq]
      rw [ih h₂ p]
    | Frag t s e =>
      cases p with
      | none =>
        simp only [List.cons_append, mergeGo, List.append_eq]
        rw [ih h₂ _]
      | some q =>
        obtain ⟨t₀, bs⟩ := q
        simp only [List.cons_append, mergeGo, List.append_eq]
        rw [ih h₂ _]
    | FragEnd t e =>
      cases p with
      | none =>
        simp only [List.cons_append, mergeGo, List.append_eq]
        rw [ih h₂ none]
      | some q =>
        obtain ⟨t₀, bs⟩ := q
        simp only [List.cons_append, mergeGo, List.append_eq]
        rw [ih h₂ none]

/-- Header reads relative to a dropped prefix. -/
theorem declaredLen_drop (B : List Nat) (o : Nat) :
    declaredLen (B.drop o) = declaredLenAt B o := by
  unfold declaredLen declaredLenAt
  rw [getD_drop_eq B o 1 0, getD_drop_eq B o 2 0, getD_drop_eq B o 3 0, getD_drop_eq B o 4 0]

/-- **The single-call simulation.**  One pass of the parse loop from offset
`o`, in a state that corresponds to the partially consumed frame `R`, emits
descriptors that merge to exactly the canonical frames `scan` finds in what
the pass consumes, and ends in a state corresponding to the new canonical
residue.  (`R ++ B.drop o` is the local byte stream from the current frame's
start; `R.length + (n - o)` its consumed byte count.) -/
theorem parseGo_sim (fuel : Nat) : ∀ (B : List Nat) (o : Nat) (st : ParserState) (R : List Nat),
    B.length - o + (if st.curType.isSome then 1 else 0) < fuel →
    5 ≤ B.length → o ≤ B.length →
    stateRel st R →
    (st.curType.isSome = true → o = 0) →
    o ≤ (parseGo fuel B o st).1 ∧ (parseGo fuel B o st).1 ≤ B.length ∧
    ((parseGo fuel B o st).2.2.curType.isSome = true → (parseGo fuel B o st).1 = B.length) ∧
    mergeGo (pendOf st R) ((parseGo fuel B o st).2.1.map (fun m => (m, B))) =
      ((scan (R ++ B.drop o) (R.length + ((parseGo fuel B o st).1 - o))).1,
       pendOf (parseGo fuel B o st).2.2
         ((scan (R ++ B.drop o) (R.length + ((parseGo fuel B o st).1 - o))).2.1.take
          (scan (R ++ B.drop o) (R.length + ((parseGo fuel B o st).1 - o))).2.2)) ∧
    stateRel (parseGo fuel B o st).2.2
      ((scan (R ++ B.drop o) (R.length + ((parseGo fuel B o st).1 - o))).2.1.take
       (scan (R ++ B.drop o) (R.length + ((parseGo fuel B o st).1 - o))).2.2) := by
  induction fuel with
  | zero => intro B o st R h _ _ _ _; omega
  | succ fuel ih =>
    intro B o st R hf h5 ho hrel hsome
    by_cases hg : o < B.length - 4
    · cases hst : st.curType with
      | none =>
        rw [stateRel, hst] at hrel
        obtain ⟨hR, hlen0, hread0⟩ := hrel
        subst hR
        rw [hst] at hf
        simp only [Option.isSome_none, Bool.false_eq_true, if_false] at hf
        by_cases hfit : declaredLenAt B o ≤ B.length - (o + 1)
        · -- complete message
          rw [parseGo_none_msg fuel B o st hst hread0 hg hfit]
          dsimp only
          set L := declaredLenAt B o with hLdef
          have hrec := ih B (o + 1 + L) (msgComplete st) [] (by
              simp [msgComplete]
              omega) h5 (by omega) (by simp [stateRel, msgComplete]) (by
              intro hcon; simp [msgComplete] at hcon)
          set rec := parseGo fuel B (o + 1 + L) (msgComplete st) with hrecdef
          obtain ⟨ih1, ih2, ih3, ih4, ih5⟩ := hrec
          have hscan0 : scan (([] : List Nat) ++ B.drop (o + 1 + L))
              (([] : List Nat).length + (rec.1 - (o + 1 + L))) =
              scan (B.drop (o + 1 + L)) (rec.1 - (o + 1 + L)) := by
            rw [List.nil_append]
            simp
          rw [hscan0] at ih4 ih5
          have hmain : scan (([] : List Nat) ++ B.drop o)
              (([] : List Nat).length + (rec.1 - o)) =
              ((B.getD o 0, sliceB B o (o + L)) ::
                (scan (B.drop (o + 1 + L)) (rec.1 - (o + 1 + L))).1,
               (scan (B.drop (o + 1 + L)) (rec.1 - (o + 1 + L))).2.1,
               (scan (B.drop (o + 1 + L)) (rec.1 - (o + 1 + L))).2.2) := by
            rw [List.nil_append]
            have hz : (([] : List Nat)).length + (rec.1 - o) = rec.1 - o := Nat.zero_add _
            rw [hz]
            have hld : declaredLen (B.drop o) = L := declaredLen_drop B o
            have hstep := scan_step (B.drop o) (rec.1 - o)
              (by rw [List.length_drop]; omega) (by rw [hld]; omega)
            rw [hstep, hld]
            have e1 : (B.drop o).getD 0 0 = B.getD o 0 := by
              have := getD_drop_eq B o 0 0
              simpa using this
            have e2 : (B.drop o).take (1 + L) = sliceB B o (o + L) := by
              rw [sliceB]
              have : o + L + 1 - o = 1 + L := by omega
              rw [this]
            have e3 : (B.drop o).drop (1 + L) = B.drop (o + 1 + L) := by
              rw [List.drop_drop]
              have : o + (1 + L) = o + 1 + L := by omega
              rw [this]
            have e4 : rec.1 - o - (1 + L) = rec.1 - (o + 1 + L) := by omega
            rw [e1, e2, e3, e4]
          rw [hmain]
          refine ⟨by omega, ih2, ih3, ?_, ih5⟩
          simp only [List.map_cons]
          rw [pendOf, hst]
          dsimp only
          rw [mergeGo]
          have hpnone : pendOf (msgComplete st) ([] : List Nat) = none := rfl
          rw [hpnone] at ih4
          rw [ih4]
        · -- overflowing new message
          rw [parseGo_none_frag fuel B o st hst hread0 hg (by omega)]
          dsimp only
          set L := declaredLenAt B o with hLdef
          have hstop : scan (([] : List Nat) ++ B.drop o)
              (([] : List Nat).length + (B.length - o)) =
              ([], B.drop o, B.length - o) := by
            rw [List.nil_append]
            have hz : (([] : List Nat)).length + (B.length - o) = B.length - o :=
              Nat.zero_add _
            rw [hz]
            refine scan_stop _ _ ?_
            rw [declaredLen_drop B o]
            intro hcon
            omega
          rw [hstop]
          dsimp only
          have hres : (B.drop o).take (B.length - o) = B.drop o := by
            apply List.take_of_length_le
            rw [List.length_drop]
          refine ⟨by omega, le_refl _, fun _ => rfl, ?_, ?_⟩
          · simp only [List.map_cons, List.map_nil]
            rw [pendOf, hst]
            dsimp only
            rw [mergeGo, mergeGo, pendOf]
            dsimp only
            rw [hres]
            have hsl : sliceB B o (B.length - 1) = B.drop o := by
              rw [sliceB]
              have harith : B.length - 1 + 1 - o = B.length - o := by omega
              rw [harith]
              apply List.take_of_length_le
              rw [List.length_drop]
            rw [hsl]
          · rw [hres]
            simp only [stateRel]
            refine ⟨by rw [List.length_drop]; omega, by rw [List.length_drop]; omega, ?_, ?_,
              by omega⟩
            · have := getD_drop_eq B o 0 0
              simpa using this
            · rw [declaredLen_drop B o]
      | some t =>
        have ho0 : o = 0 := hsome (by rw [hst]; rfl)
        subst ho0
        rw [stateRel, hst] at hrel
        obtain ⟨hRlen, hR5, hRhead, hRdecl, hwf⟩ := hrel
        rw [hst] at hf
        simp only [Option.isSome_some, if_true] at hf
        have hLRB : declaredLen (R ++ B) = st.curLen := by
          rw [declaredLen_append R B hR5, hRdecl]
        by_cases hfit : st.curLen - st.curRead ≤ B.length
        · -- the pending frame completes
          rw [parseGo_some_end fuel B st t hst hwf (by omega) hfit]
          dsimp only
          set rem := st.curLen - st.curRead with hremdef
          have hrec := ih B rem (msgComplete st) [] (by
              simp [msgComplete]
              omega) h5 (by omega) (by simp [stateRel, msgComplete]) (by
              intro hcon; simp [msgComplete] at hcon)
          set rec := parseGo fuel B rem (msgComplete st) with hrecdef
          obtain ⟨ih1, ih2, ih3, ih4, ih5⟩ := hrec
          have hscan0 : scan (([] : List Nat) ++ B.drop rem)
              (([] : List Nat).length + (rec.1 - rem)) =
              scan (B.drop rem) (rec.1 - rem) := by
            rw [List.nil_append]
            simp
          rw [hscan0] at ih4 ih5
          have hmain : scan (R ++ B.drop 0) (R.length + (rec.1 - 0)) =
              ((t, R ++ B.take rem) ::
                (scan (B.drop rem) (rec.1 - rem)).1,
               (scan (B.drop rem) (rec.1 - rem)).2.1,
               (scan (B.drop rem) (rec.1 - rem)).2.2) := by
            have hd0 : B.drop 0 = B := rfl
            rw [hd0]
            have hstep := scan_step (R ++ B) (R.length + (rec.1 - 0))
              (by rw [List.length_append]; omega)
              (by rw [hLRB]; omega)
            rw [hstep, hLRB]
            have e1 : (R ++ B).getD 0 0 = t := by
              rw [List.getD_append _ _ _ _ (by omega), hRhead]
            have e2 : (R ++ B).take (1 + st.curLen) = R ++ B.take rem := by
              have : 1 + st.curLen = R.length + rem := by omega
              rw [this, List.take_append]
            have e3 : (R ++ B).drop (1 + st.curLen) = B.drop rem := by
              have : 1 + st.curLen = R.length + rem := by omega
              rw [this, List.drop_append]
            have e4 : R.length + (rec.1 - 0) - (1 + st.curLen) = rec.1 - rem := by omega
            rw [e1, e2, e3, e4]
          rw [hmain]
          refine ⟨by omega, ih2, ih3, ?_, ih5⟩
          simp only [List.map_cons]
          rw [pendOf, hst]
          dsimp only
          rw [mergeGo]
          have hpnone : pendOf (msgComplete st) ([] : List Nat) = none := rfl
          rw [hpnone] at ih4
          rw [ih4]
          have hsl : sliceB B 0 (rem - 1) = B.take rem := by
            rw [sliceB]
            have h1 : B.drop 0 = B := rfl
            have h2 : rem - 1 + 1 - 0 = rem := by omega
            rw [h1, h2]
          rw [hsl]
        · -- the pending frame still overflows
          rw [parseGo_some_frag fuel B st t hst (by omega) (by omega)]
          dsimp only
          have hstop : scan (R ++ B.drop 0) (R.length + (B.length - 0)) =
              ([], R ++ B, R.length + B.length) := by
            have hd0 : B.drop 0 = B := rfl
            have hs0 : B.length - 0 = B.length := rfl
            rw [hd0, hs0]
            refine scan_stop _ _ ?_
            rw [hLRB]
            intro hcon
            omega
          rw [hstop]
          dsimp only
          have hres : (R ++ B).take (R.length + B.length) = R ++ B := by
            apply List.take_of_length_le
            rw [List.length_append]
          refine ⟨by omega, le_refl _, fun _ => rfl, ?_, ?_⟩
          · simp only [List.map_cons, List.map_nil]
            rw [pendOf, hst]
            dsimp only
            rw [mergeGo, mergeGo, pendOf]
            dsimp only
            rw [hres]
            have hsl : sliceB B 0 (B.length - 1) = B := by
              rw [sliceB]
              have h1 : B.drop 0 = B := rfl
              have h2 : B.length - 1 + 1 - 0 = B.length := by omega
              rw [h1, h2]
              apply List.take_of_length_le
              exact le_refl _
            rw [hsl]
          · rw [hres]
            simp only [stateRel, hst]
            refine ⟨by rw [List.length_append]; omega, by rw [List.length_append]; omega,
              ?_, ?_, by omega⟩
            · rw [List.getD_append _ _ _ _ (by omega), hRhead]
            · rw [hLRB]
    · -- loop exit
      rw [parseGo_exit (fuel + 1) B o st hg]
      dsimp only
      cases hst : st.curType with
      | none =>
        rw [stateRel, hst] at hrel
        obtain ⟨hR, hlen0, hread0⟩ := hrel
        subst hR
        have hstop : scan (([] : List Nat) ++ B.drop o) (([] : List Nat).length + (o - o)) =
            ([], B.drop o, 0) := by
          rw [List.nil_append]
          have hz : (([] : List Nat)).length + (o - o) = 0 := by simp
          rw [hz]
          refine scan_stop _ _ ?_
          intro hcon
          omega
        rw [hstop]
        dsimp only
        refine ⟨le_refl o, ho, ?_, ?_, ?_⟩
        · intro hcon; simp at hcon
        · simp only [List.map_nil]
          rw [mergeGo, pendOf, pendOf, hst]
        · rw [stateRel, hst]
          exact ⟨rfl, hlen0, hread0⟩
      | some t =>
        have ho0 : o = 0 := hsome (by rw [hst]; rfl)
        omega

/-- The call-level simulation: one `parse` call emits descriptors that merge
to the canonical frames completed inside the bytes it consumes, and leaves a
state corresponding to the canonical residue; at most four bytes stay
unconsumed, and if the final state is mid-frame on a workable buffer the call
consumed everything. -/
theorem parse_sim (st : ParserState) (R B : List Nat) (hrel : stateRel st R) :
    (parse st B).1 ≤ B.length ∧
    B.length - (parse st B).1 ≤ 4 ∧
    (5 ≤ B.length → (parse st B).2.2.curType.isSome = true → (parse st B).1 = B.length) ∧
    mergeGo (pendOf st R) ((parse st B).2.1.map (fun m => (m, B))) =
      ((scan (R ++ B) (R.length + (parse st B).1)).1,
       pendOf (parse st B).2.2
         ((scan (R ++ B) (R.length + (parse st B).1)).2.1.take
          (scan (R ++ B) (R.length + (parse st B).1)).2.2)) ∧
    stateRel (parse st B).2.2
      ((scan (R ++ B) (R.length + (parse st B).1)).2.1.take
       (scan (R ++ B) (R.length + (parse st B).1)).2.2) := by
  rw [parse]
  by_cases hlen : B.length < 5
  · rw [if_pos hlen]
    dsimp only
    cases hst : st.curType with
    | none =>
      rw [stateRel, hst] at hrel
      obtain ⟨hR, hlen0, hread0⟩ := hrel
      subst hR
      have hstop : scan (([] : List Nat) ++ B) (([] : List Nat).length + 0) = ([], B, 0) := by
        rw [List.nil_append]
        have hz : (([] : List Nat)).length + 0 = 0 := rfl
        rw [hz]
        exact scan_stop _ _ (by intro hcon; omega)
      rw [hstop]
      dsimp only
      refine ⟨by omega, by omega, fun _ hcon => by simp [hst] at hcon, ?_, ?_⟩
      · simp only [List.map_nil]
        rw [mergeGo, pendOf, pendOf, hst]
      · rw [List.take_zero, stateRel, hst]
        exact ⟨rfl, hlen0, hread0⟩
    | some t =>
      rw [stateRel, hst] at hrel
      obtain ⟨hRlen, hR5, hRhead, hRdecl, hwf⟩ := hrel
      have hstop : scan (R ++ B) (R.length + 0) = ([], R ++ B, R.length) := by
        have hz : R.length + 0 = R.length := rfl
        rw [hz]
        refine scan_stop _ _ ?_
        rw [declaredLen_append R B hR5, hRdecl]
        intro hcon
        omega
      rw [hstop]
      dsimp only
      have hres : (R ++ B).take R.length = R := by
        rw [List.take_append_of_le_length (le_refl _), List.take_length]
      rw [hres]
      refine ⟨by omega, by omega, fun h _ => by omega, ?_, ?_⟩
      · simp only [List.map_nil]
        rw [mergeGo]
      · rw [stateRel, hst]
        exact ⟨hRlen, hR5, hRhead, hRdecl, hwf⟩
  · rw [if_neg hlen]
    have hflag : (if st.curType.isSome then 1 else 0) ≤ 1 := by split <;> omega
    have hsome0 : st.curType.isSome = true → (0 : Nat) = 0 := fun _ => rfl
    have hsim := parseGo_sim (B.length + 2) B 0 st R (by omega) (by omega) (by omega)
      hrel hsome0
    have hbounds := parseGo_bounds (B.length + 2) B 0 st (by omega) (by omega)
      (fun _ => Or.inl rfl)
    obtain ⟨s1, s2, s3, s4, s5⟩ := hsim
    have hd0 : B.drop 0 = B := rfl
    rw [hd0] at s4 s5
    have hsub0 : (parseGo (B.length + 2) B 0 st).1 - 0 = (parseGo (B.length + 2) B 0 st).1 :=
      rfl
    rw [hsub0] at s4 s5
    exact ⟨s2, by omega, fun _ => s3, s4, s5⟩

/-! ## Chaining calls: the chunk-feeding simulation

`read_and_parse` re-presents each call's unconsumed tail as the prefix of the
next buffer; `runChunks_sim` lifts the single-call simulation along this
carry policy.  The bridge facts: merging an empty history returns the pending
chain, the scanner never steps at the exact residue boundary, and the
completed-frame list is monotone in the consumed count. -/

/-- Merging an empty history returns the pending chain untouched. -/
theorem mergeGo_nil (p : Option (Nat × List Nat)) : mergeGo p [] = ([], p) := by
  cases p with
  | none => rfl
  | some q => obtain ⟨t, bs⟩ := q; rfl

/-- Taking a prepended list back off. -/
theorem take_length_append (R tail : List Nat) : (R ++ tail).take R.length = R := by
  rw [List.take_append_of_le_length (le_refl _), List.take_length]

/-- At exactly the residue's length the scanner finds no complete frame: a
residue is a strict prefix of its frame. -/
theorem scan_at_residue (st : ParserState) (R tail : List Nat) (hrel : stateRel st R) :
    scan (R ++ tail) R.length = ([], R ++ tail, R.length) := by
  apply scan_stop
  intro hcon
  cases hst : st.curType with
  | none =>
    simp only [stateRel, hst] at hrel
    obtain ⟨hR, -, -⟩ := hrel
    subst hR
    simp only [List.length_nil] at hcon
    omega
  | some t =>
    simp only [stateRel, hst] at hrel
    obtain ⟨hRlen, hR5, -, hRdecl, hwf⟩ := hrel
    rw [declaredLen_append R tail hR5, hRdecl] at hcon
    omega

/-- Completed frames are monotone in the consumed count. -/
theorem scan_mono (fuel : Nat) : ∀ (S : List Nat) (k k' : Nat), k ≤ k' → k < fuel →
    ∃ t, (scan S k).1 ++ t = (scan S k').1 := by
  induction fuel with
  | zero => intro S k k' _ h; omega
  | succ fuel ih =>
    intro S k k' hkk h
    by_cases hc : 5 ≤ S.length ∧ 1 + declaredLen S ≤ k
    · rw [scan_step S k hc.1 hc.2, scan_step S k' hc.1 (le_trans hc.2 hkk)]
      dsimp only
      obtain ⟨t, ht⟩ := ih (S.drop (1 + declaredLen S)) (k - (1 + declaredLen S))
        (k' - (1 + declaredLen S)) (by omega) (by omega)
      exact ⟨t, by rw [List.cons_append, ht]⟩
    · rw [scan_stop S k hc]
      exact ⟨(scan S k').1, by rw [List.nil_append]⟩

/-- **The run-level simulation.**  Feeding chunks with the carry policy of
`read_and_parse`, from a state corresponding to residue `R` and with a carry
of at most four bytes, the merged events are exactly the canonical frames of
the whole stream `R ++ carry ++ chunks.flatten` completed within some
consumed count `k`; the final carry is the stream's suffix past `k` (again at
most four bytes), and the final state corresponds to the canonical residue at
`k`. -/
theorem runChunks_sim : ∀ (chunks : List (List Nat)) (st : ParserState) (carry R : List Nat),
    stateRel st R → carry.length ≤ 4 →
    ∃ k,
      R.length ≤ k ∧ k ≤ (R ++ carry ++ chunks.flatten).length ∧
      (runChunks (st, carry) chunks).1.2 = (R ++ carry ++ chunks.flatten).drop k ∧
      (runChunks (st, carry) chunks).1.2.length ≤ 4 ∧
      mergeGo (pendOf st R) (runChunks (st, carry) chunks).2 =
        ((scan (R ++ carry ++ chunks.flatten) k).1,
         pendOf (runChunks (st, carry) chunks).1.1
           ((scan (R ++ carry ++ chunks.flatten) k).2.1.take
            (scan (R ++ carry ++ chunks.flatten) k).2.2)) ∧
      stateRel (runChunks (st, carry) chunks).1.1
        ((scan (R ++ carry ++ chunks.flatten) k).2.1.take
         (scan (R ++ carry ++ chunks.flatten) k).2.2) := by
  intro chunks
  induction chunks with
  | nil =>
    intro st carry R hrel hc4
    simp only [runChunks, List.flatten_nil, List.append_nil]
    refine ⟨R.length, le_refl _, by rw [List.length_append]; omega,
      (List.drop_left R carry).symm, hc4, ?_, ?_⟩
    · rw [scan_at_residue st R carry hrel]
      dsimp only
      rw [take_length_append, mergeGo_nil]
    · rw [scan_at_residue st R carry hrel]
      dsimp only
      rw [take_length_append]
      exact hrel
  | cons c cs ih =>
    intro st carry R hrel hc4
    have hrun : runChunks (st, carry) (c :: cs) =
        ((runChunks ((parse st (carry ++ c)).2.2,
            (carry ++ c).drop (parse st (carry ++ c)).1) cs).1,
         (parse st (carry ++ c)).2.1.map (fun m => (m, carry ++ c)) ++
           (runChunks ((parse st (carry ++ c)).2.2,
            (carry ++ c).drop (parse st (carry ++ c)).1) cs).2) := rfl
    set B := carry ++ c with hB
    have hps := parse_sim st R B hrel
    set p := parse st B with hp
    obtain ⟨hn1le, hgap1, -, hmerge1, hrel1⟩ := hps
    set S1 := R ++ B with hS1
    set k1 := R.length + p.1 with hk1
    set R1 := (scan S1 k1).2.1.take (scan S1 k1).2.2 with hR1
    have hlenS1 : S1.length = R.length + B.length := by rw [hS1, List.length_append]
    have hk1le : k1 ≤ S1.length := by omega
    have hprops1 := scan_props (k1 + 1) S1 k1 (by omega) hk1le
    have hdropS1 : S1.drop k1 = B.drop p.1 := by
      rw [hS1, hk1, ← List.drop_drop, List.drop_left]
    have hrest1 : R1 ++ B.drop p.1 = (scan S1 k1).2.1 := by
      rw [hR1, ← hdropS1, ← hprops1.1, List.take_append_drop]
    have hkr1 : (scan S1 k1).2.2 = R1.length := by
      rw [hR1, List.length_take]
      have := hprops1.2.1
      omega
    have hc41 : (B.drop p.1).length ≤ 4 := by
      rw [List.length_drop]; omega
    obtain ⟨k2, hk2ge, hk2le, hcarry2, hc42, hmerge2, hrel2⟩ :=
      ih p.2.2 (B.drop p.1) R1 hrel1 hc41
    have hlenS2 : (R1 ++ B.drop p.1 ++ cs.flatten).length =
        (R1 ++ B.drop p.1).length + cs.flatten.length := by rw [List.length_append]
    have hlenR1B : (R1 ++ B.drop p.1).length = R1.length + (B.drop p.1).length := by
      rw [List.length_append]
    have hldrop : (B.drop p.1).length = B.length - p.1 := by rw [List.length_drop]
    have hlenSF : (S1 ++ cs.flatten).length = S1.length + cs.flatten.length := by
      rw [List.length_append]
    have hext := scan_extend (k1 + 1) S1 k1 cs.flatten (k2 - R1.length) (by omega) hk1le
    rw [← hrest1, hkr1] at hext
    have hk2eq : R1.length + (k2 - R1.length) = k2 := by omega
    rw [hk2eq] at hext
    have hSgoal : R ++ carry ++ (c :: cs).flatten = S1 ++ cs.flatten := by
      rw [hS1, hB, List.flatten_cons]
      simp only [List.append_assoc]
    have hdropa : (S1 ++ cs.flatten).drop (k1 + (k2 - R1.length)) =
        (B.drop p.1 ++ cs.flatten).drop (k2 - R1.length) := by
      rw [← List.drop_drop, List.drop_append_of_le_length hk1le, hdropS1]
    have hdropb : (R1 ++ B.drop p.1 ++ cs.flatten).drop k2 =
        (B.drop p.1 ++ cs.flatten).drop (k2 - R1.length) := by
      conv_lhs => rw [List.append_assoc, ← hk2eq]
      rw [← List.drop_drop, List.drop_left]
    have h21 : (scan (S1 ++ cs.flatten) (k1 + (k2 - R1.length))).2.1 =
        (scan (R1 ++ B.drop p.1 ++ cs.flatten) k2).2.1 := by rw [hext.2]
    have h22 : (scan (S1 ++ cs.flatten) (k1 + (k2 - R1.length))).2.2 =
        (scan (R1 ++ B.drop p.1 ++ cs.flatten) k2).2.2 := by rw [hext.2]
    rw [hrun, hSgoal]
    dsimp only
    refine ⟨k1 + (k2 - R1.length), by omega, by omega, ?_, hc42, ?_, ?_⟩
    · rw [hcarry2, hdropb, hdropa]
    · rw [mergeGo_append, hmerge1]
      dsimp only
      rw [hmerge2]
      dsimp only
      rw [hext.1, h21, h22]
    · rw [h21, h22]
      exact hrel2

/-- Chunk-fed events from a fresh state are the canonical frames of the
concatenated stream completed within a consumed count reaching to within
four bytes of its end; the final parser state corresponds to the canonical
residue there. -/
theorem chunkedEvents_eq_scan (chunks : List (List Nat)) :
    ∃ k, k ≤ chunks.flatten.length ∧ chunks.flatten.length - k ≤ 4 ∧
      chunkedEvents chunks = (scan chunks.flatten k).1 ∧
      stateRel (runChunks (freshState, []) chunks).1.1
        ((scan chunks.flatten k).2.1.take (scan chunks.flatten k).2.2) := by
  obtain ⟨k, -, hle, hcarry, hc4, hmerge, hrel⟩ :=
    runChunks_sim chunks freshState [] [] ⟨rfl, rfl, rfl⟩ (by simp)
  simp only [List.nil_append] at hle hcarry hmerge hrel
  refine ⟨k, hle, ?_, ?_, hrel⟩
  · rw [hcarry, List.length_drop] at hc4
    exact hc4
  · have h1 := congrArg Prod.fst hmerge
    exact h1

/-- A single call over the whole stream from a fresh state: the events are
the canonical frames at the call's consumed count, which reaches to within
four bytes of the end — all the way when the parser is left mid-frame. -/
theorem chunkedEvents_single (J : List Nat) :
    chunkedEvents [J] = (scan J (parse freshState J).1).1 ∧
    (parse freshState J).1 ≤ J.length ∧
    J.length - (parse freshState J).1 ≤ 4 ∧
    (5 ≤ J.length → (parse freshState J).2.2.curType.isSome = true →
      (parse freshState J).1 = J.length) ∧
    stateRel (parse freshState J).2.2
      ((scan J (parse freshState J).1).2.1.take
       (scan J (parse freshState J).1).2.2) := by
  have hps := parse_sim freshState [] J ⟨rfl, rfl, rfl⟩
  have hz : ([] : List Nat) ++ J = J := rfl
  have hz2 : ([] : List Nat).length + (parse freshState J).1 = (parse freshState J).1 := by
    simp
  rw [hz, hz2] at hps
  obtain ⟨h1, h2, h3, h4, h5⟩ := hps
  refine ⟨?_, h1, h2, h3, h5⟩
  have hpend : pendOf freshState [] = none := rfl
  rw [hpend] at h4
  have hm : chunkedEvents [J] =
      (mergeGo none ((parse freshState J).2.1.map (fun m => (m, J)) ++ [])).1 := rfl
  rw [hm, List.append_nil]
  exact congrArg Prod.fst h4

/-- **C1, counterexample.**  Chunk feeding is *not* equivalent to a single
call over the concatenation: the 9-byte frame `[84,0,0,0,8,1,2,3,4]` fed as
`[84,0,0,0,8,1]` then `[2,3,4]` yields no merged message — the second call's
buffer is the 1-byte carry plus 3 new bytes, below the 5-byte threshold, so
the parser consumes nothing and the frame starves — while the single call
over the whole stream yields the frame. -/
theorem chunked_feed_counterexample :
    ([[84, 0, 0, 0, 8, 1], [2, 3, 4]] : List (List Nat)).flatten =
      [84, 0, 0, 0, 8, 1, 2, 3, 4] ∧
    chunkedEvents [[84, 0, 0, 0, 8, 1], [2, 3, 4]] = [] ∧
    chunkedEvents [[84, 0, 0, 0, 8, 1, 2, 3, 4]] =
      [(84, [84, 0, 0, 0, 8, 1, 2, 3, 4])] := by
  exact ⟨rfl, by decide, by decide⟩

/-- **C1** (corrected).  Feeding any partition of a stream chunk-by-chunk to
`parse` with the carry policy of `read_and_parse` produces a *prefix* of the
merged message sequence of a single call over the whole stream: every message
the chunked feed emits agrees with the single call in order, tag and payload
bytes, but equality can fail — a final carry below the 5-byte header
threshold is never consumed (see `chunked_feed_counterexample`). -/
theorem chunked_prefix_of_whole (chunks : List (List Nat)) :
    ∃ t, chunkedEvents chunks ++ t = chunkedEvents [chunks.flatten] := by
  obtain ⟨k2, hk2le, hgap2, hev2, hrel2⟩ := chunkedEvents_eq_scan chunks
  set J := chunks.flatten with hJ
  obtain ⟨hev1, hn1le, hgap1, hfull1, hrel1⟩ := chunkedEvents_single J
  set n1 := (parse freshState J).1 with hn1def
  have hk2n1 : k2 ≤ n1 := by
    by_contra hgt
    push_neg at hgt
    have hprops1 := scan_props (n1 + 1) J n1 (by omega) hn1le
    cases hst1 : (parse freshState J).2.2.curType with
    | some t =>
      by_cases h5 : 5 ≤ J.length
      · have := hfull1 h5 (by rw [hst1]; rfl)
        omega
      · have hpeq : parse freshState J = (0, [], freshState) := by
          unfold parse
          rw [if_pos (by omega)]
        rw [hpeq] at hst1
        simp [freshState] at hst1
    | none =>
      simp only [stateRel, hst1] at hrel1
      obtain ⟨htake0, -, -⟩ := hrel1
      rcases List.take_eq_nil_iff.mp htake0 with hkr0 | hrestnil
      · have hrest : (scan J n1).2.1 = J.drop n1 := by
          have hd := hprops1.1
          rw [hkr0, List.drop_zero] at hd
          exact hd
        have hrlen : (J.drop n1).length ≤ 4 := by
          rw [List.length_drop]; omega
        have hext := scan_extend (n1 + 1) J n1 ([] : List Nat) (k2 - n1) (by omega) hn1le
        rw [List.append_nil, List.append_nil, hkr0, Nat.zero_add, hrest] at hext
        have hn1k2 : n1 + (k2 - n1) = k2 := by omega
        rw [hn1k2] at hext
        have hstop : scan (J.drop n1) (k2 - n1) = ([], J.drop n1, k2 - n1) := by
          apply scan_stop
          intro hcon
          have := hcon.1
          omega
        rw [hstop] at hext
        have h21 : (scan J k2).2.1 = J.drop n1 := by rw [hext.2]
        have h22 : (scan J k2).2.2 = k2 - n1 := by rw [hext.2]
        rw [h21, h22] at hrel2
        cases hst2 : (runChunks (freshState, []) chunks).1.1.curType with
        | none =>
          simp only [stateRel, hst2] at hrel2
          obtain ⟨ht0, -, -⟩ := hrel2
          rcases List.take_eq_nil_iff.mp ht0 with h0 | hnil
          · omega
          · have hlen := congrArg List.length hnil
            rw [List.length_drop, List.length_nil] at hlen
            omega
        | some t2 =>
          simp only [stateRel, hst2] at hrel2
          have h5t := hrel2.2.1
          have hta := List.length_take_le (k2 - n1) (J.drop n1)
          omega
      · have hd := hprops1.1
        rw [hrestnil, List.drop_nil] at hd
        have hlen := congrArg List.length hd.symm
        rw [List.length_drop, List.length_nil] at hlen
        omega
  obtain ⟨t, ht⟩ := scan_mono (k2 + 1) J k2 n1 hk2n1 (by omega)
  rw [hev2, hev1]
  exact ⟨t, ht⟩


end Tusq
